import Mathlib

/-!
# Halite III turn core (`environment/core/HaliteImpl.cpp`)

A shallow embedding of the entity lifecycle (`spawn_entity`, `process_entities`) and of the
production resolver (`find_closest_entities`, `process_tie`, `process_production`).

Conventions of the embedding

* `id_type`, `energy_type` and `dimension_type` are declared in headers that are not part of the
  sources at hand; they are embedded as unbounded `Int`.
* A `std::shared_ptr<Entity>` is a reference `Ref` into a store of entity objects, so that the
  sharing of one entity object between a player's entity map and a grid cell is explicit.
* A `std::unordered_map` is an association list holding the entries in iteration order;
  `find` is `map.find(key)` and `assign` is `map[key] = value`.
* `game->players` keeps for every entry both the key (`player_pair.first`) and the player
  (`player_pair.second`), whose own `player_id` field is what `spawn_entity` reads.
-/

namespace Halite

/-- Grid coordinates, `std::pair<dimension_type, dimension_type>`. -/
abbrev Location := Int × Int

/-- Reference to an entity object (the target of a `std::shared_ptr<Entity>`). -/
abbrev Ref := Nat

/-- An entity object: the two members the turn core reads and writes. -/
structure Entity where
  owner_id : Int
  energy : Int
deriving DecidableEq, Repr

/-- A player: identifier, energy balance, factory location and owned entities by location. -/
structure Player where
  player_id : Int
  energy : Int
  factory_location : Location
  entities : List (Location × Ref)
deriving DecidableEq, Repr

/-- A grid cell: production capacity and the back-references to resident entities by player id. -/
structure Cell where
  production : Int
  entities : List (Int × Ref)
deriving DecidableEq, Repr

/-- The tuning values read through `Constants::get()`. -/
structure Constants where
  NEW_ENTITY_ENERGY : Int
  NEW_ENTITY_ENERGY_COST : Int
  BASE_TURN_ENERGY_LOSS : Int
deriving DecidableEq, Repr

/-- The game map. `at` and `distance` are members of a class declared outside the sources at
hand: `cells` is the cell reached by `game_map.at(location)` and `distance` is taken as given. -/
structure GameMap where
  width : Int
  height : Int
  cells : Location → Cell
  distance : Location → Location → Int

/-- Everything `spawn_entity` touches besides the player it is handed: the map and the entity
objects. `next` is the reference the next `make_entity` call returns. -/
structure World where
  game_map : GameMap
  store : Ref → Entity
  next : Ref

/-- The game state: `game->players` in iteration order, and the world. -/
structure Game where
  players : List (Int × Player)
  world : World

/-- The member `map.find(key)` of an association list: the value of the first entry under `key`. -/
def find {κ ν : Type} [DecidableEq κ] (key : κ) : List (κ × ν) → Option ν
  | [] => none
  | (k, v) :: m => if k = key then some v else find key m

/-- The assignment `map[key] = value`: overwrite the entry under `key`, or add one. -/
def assign {κ ν : Type} [DecidableEq κ] (key : κ) (value : ν) : List (κ × ν) → List (κ × ν)
  | [] => [(key, value)]
  | (k, v) :: m => if k = key then (key, value) :: m else (k, v) :: assign key value m

/-- Write to one entity object. -/
def set_entity (store : Ref → Entity) (r : Ref) (e : Entity) : Ref → Entity :=
  fun r' => if r' = r then e else store r'

/-- The statement `entity->energy += delta` on the store. -/
def add_energy (store : Ref → Entity) (r : Ref) (delta : Int) : Ref → Entity :=
  set_entity store r ⟨(store r).owner_id, (store r).energy + delta⟩

/-- The statement `game_map.at(location)->entities[id] = entity`. -/
def GameMap.register (m : GameMap) (location : Location) (id : Int) (entity : Ref) : GameMap :=
  { m with cells := fun l =>
      if l = location then { m.cells l with entities := assign id entity (m.cells l).entities }
      else m.cells l }

/-- `HaliteImpl::spawn_entity(Player &player, const Location &location)`; the player is passed
by reference, so the updated player is returned next to the updated world. -/
def spawn_entity (c : Constants) (w : World) (player : Player) (location : Location) :
    World × Player :=
  match find location player.entities with
  | some entity =>
    -- If there is already an entity, merge.
    ({ w with store := add_energy w.store entity c.NEW_ENTITY_ENERGY }, player)
  | none =>
    -- Otherwise, spawn.
    let entity : Ref := w.next
    ({ game_map := w.game_map.register location player.player_id entity
       store := set_entity w.store entity ⟨player.player_id, c.NEW_ENTITY_ENERGY⟩
       next := w.next + 1 },
     { player with entities := assign location entity player.entities })

/-- One round of the spawn loop of `process_entities`: a player whose balance covers the cost
pays it and spawns at its factory. -/
def spawn_step (c : Constants) (w : World) (player : Player) : World × Player :=
  if player.energy ≥ c.NEW_ENTITY_ENERGY_COST then
    spawn_entity c w { player with energy := player.energy - c.NEW_ENTITY_ENERGY_COST }
      player.factory_location
  else (w, player)

/-- The first loop of `process_entities`, over `game->players` in iteration order. -/
def spawn_pass (c : Constants) : World → List (Int × Player) → World × List (Int × Player)
  | w, [] => (w, [])
  | w, (k, p) :: ps =>
    let r := spawn_step c w p
    let rest := spawn_pass c r.1 ps
    (rest.1, (k, r.2) :: rest.2)

/-- The inner loop of the second loop of `process_entities`, over one player's entity map: every
entry's entity loses the base energy, and the entry is erased when nothing is left. -/
def decay_entities (c : Constants) :
    (Ref → Entity) → List (Location × Ref) → (Ref → Entity) × List (Location × Ref)
  | store, [] => (store, [])
  | store, (l, r) :: es =>
    let store1 := add_energy store r (-c.BASE_TURN_ENERGY_LOSS)
    let rest := decay_entities c store1 es
    if (store1 r).energy ≤ 0 then rest else (rest.1, (l, r) :: rest.2)

/-- The second loop of `process_entities`, over `game->players` in iteration order. -/
def decay_pass (c : Constants) :
    (Ref → Entity) → List (Int × Player) → (Ref → Entity) × List (Int × Player)
  | store, [] => (store, [])
  | store, (k, p) :: ps =>
    let r := decay_entities c store p.entities
    let rest := decay_pass c r.1 ps
    (rest.1, (k, { p with entities := r.2 }) :: rest.2)

/-- The state between the two loops of `process_entities`. -/
def after_spawn (c : Constants) (g : Game) : Game :=
  let s := spawn_pass c g.world g.players
  { players := s.2, world := s.1 }

/-- The second loop of `process_entities` on a state. -/
def decay (c : Constants) (g : Game) : Game :=
  let d := decay_pass c g.world.store g.players
  { players := d.2, world := { g.world with store := d.1 } }

/-- `HaliteImpl::process_entities()`. -/
def process_entities (c : Constants) (g : Game) : Game :=
  decay c (after_spawn c g)

/-- The player-map/grid consistency: every entry of a player's entity map is registered in the
cell at its location under the player's id, and every entry of a cell is an entry of the entity
map of a player with that id. -/
def Consistent (players : List (Int × Player)) (m : GameMap) : Prop :=
  (∀ kp ∈ players, ∀ (l : Location) (r : Ref), find l kp.2.entities = some r →
      find kp.2.player_id (m.cells l).entities = some r) ∧
  (∀ (l : Location) (id : Int) (r : Ref), find id (m.cells l).entities = some r →
      ∃ kp ∈ players, kp.2.player_id = id ∧ find l kp.2.entities = some r)

/-- The entity objects referenced from the players' entity maps, entry by entry. -/
def entity_refs : List (Int × Player) → List Ref
  | [] => []
  | (_, p) :: ps => p.entities.map Prod.snd ++ entity_refs ps

/-- An entity object after one base energy loss. -/
def decayed (c : Constants) (e : Entity) : Entity :=
  ⟨e.owner_id, e.energy - c.BASE_TURN_ENERGY_LOSS⟩

/-- The entries of an entity map whose entity, as read from `store`, has energy left after one
base energy loss. -/
def survivors (c : Constants) (store : Ref → Entity) (es : List (Location × Ref)) :
    List (Location × Ref) :=
  es.filter fun e => decide (0 < (decayed c (store e.2)).energy)

/-- The decay contract of `process_entities`: every entry a player's entity map holds once the
spawn loop has finished has its entity lose the base energy exactly once, and the entry stays
(same player, same location) when energy is left and is gone otherwise; and every entity left
in a player's entity map has energy above zero. -/
def DecaysOnce (c : Constants) (g : Game) : Prop :=
  (∀ (i : Nat) (k : Int) (p : Player), (after_spawn c g).players[i]? = some (k, p) →
    ∃ q : Player, (process_entities c g).players[i]? = some (k, q) ∧
      ∀ (l : Location) (r : Ref), (l, r) ∈ p.entities →
        ((process_entities c g).world.store r).energy
          = ((after_spawn c g).world.store r).energy - c.BASE_TURN_ENERGY_LOSS ∧
        ((process_entities c g).world.store r).owner_id
          = ((after_spawn c g).world.store r).owner_id ∧
        (0 < ((after_spawn c g).world.store r).energy - c.BASE_TURN_ENERGY_LOSS →
          (l, r) ∈ q.entities) ∧
        (((after_spawn c g).world.store r).energy - c.BASE_TURN_ENERGY_LOSS ≤ 0 →
          ∀ l1 : Location, (l1, r) ∉ q.entities)) ∧
  (∀ kq ∈ (process_entities c g).players, ∀ e ∈ kq.2.entities,
    0 < ((process_entities c g).world.store e.2).energy)

/-- `HaliteImpl::process_tie`: the body discards its three arguments, so the turn production it
is handed comes back as it was. -/
def process_tie (_cell_location : Location) (_close_entities : List Ref)
    (turn_player_production : List (Int × Int)) : List (Int × Int) :=
  turn_player_production

/-- One round of the inner loop of `find_closest_entities`: the running closest distance and the
list of closest entities after looking at one entry of a player's entity map. -/
def closest_step (m : GameMap) (cell_location : Location) (acc : Int × List Ref)
    (loc_entity_pair : Location × Ref) : Int × List Ref :=
  let cell_player_dist := m.distance loc_entity_pair.1 cell_location
  if cell_player_dist < acc.1 then
    -- remove any farther players from list, then add this one
    (cell_player_dist, [loc_entity_pair.2])
  else if cell_player_dist = acc.1 then
    (acc.1, acc.2 ++ [loc_entity_pair.2])
  else acc

/-- Both loops of `find_closest_entities`, keeping the running distance next to the list. -/
def closest_scan (m : GameMap) (cell_location : Location) (players : List (Int × Player))
    (acc : Int × List Ref) : Int × List Ref :=
  players.foldl (fun a player_pair => player_pair.2.entities.foldl (closest_step m cell_location) a)
    acc

/-- `HaliteImpl::find_closest_entities(cell_location, close_entities)`: the list the output
parameter holds on return. -/
def find_closest_entities (g : Game) (cell_location : Location) (close_entities : List Ref) :
    List Ref :=
  (closest_scan g.world.game_map cell_location g.players
    (g.world.game_map.height + g.world.game_map.width, close_entities)).2

/-- The flag `multiple_close_players` of `process_production` after its loop over the closest
entities: every round assigns the comparison of the current owner with the first one. -/
def multiple_close_players (store : Ref → Entity) (first_player_id : Int)
    (close_entities : List Ref) : Bool :=
  close_entities.foldl (fun _ entity => decide ((store entity).owner_id ≠ first_player_id)) false

/-- The statement `turn_player_production[id] += amount`; a missing entry is value-initialised
to zero first. -/
def add_production (id : Int) (amount : Int) : List (Int × Int) → List (Int × Int)
  | [] => [(id, 0 + amount)]
  | (k, v) :: m => if k = id then (k, v + amount) :: m else (k, v) :: add_production id amount m

/-- The body of the two nested loops of `process_production` for the cell `(pos_x, pos_y)`. -/
def production_cell (g : Game) (turn_player_production : List (Int × Int)) (pos_x pos_y : Int) :
    List (Int × Int) :=
  let cell_location : Location := (pos_x, pos_y)
  let close_entities := find_closest_entities g cell_location []
  match close_entities with
  | [] => turn_player_production
  | front :: _ =>
    -- determine how many different players are this distance away
    let first_player_id := (g.world.store front).owner_id
    if multiple_close_players g.world.store first_player_id close_entities then
      process_tie (pos_x, pos_y) close_entities turn_player_production
    else
      add_production first_player_id (g.world.game_map.cells (pos_x, pos_y)).production
        turn_player_production

/-- The cells in the order the nested loops of `process_production` visit them: `pos_y` from 0
below `height`, and for each `pos_y`, `pos_x` from 0 below `width`. -/
def scan_order (m : GameMap) : List Location :=
  (List.range m.height.toNat).flatMap fun pos_y =>
    (List.range m.width.toNat).map fun pos_x => ((pos_x : Int), (pos_y : Int))

/-- The turn production once the nested loops of `process_production` have finished. -/
def turn_production (g : Game) : List (Int × Int) :=
  (scan_order g.world.game_map).foldl (fun turn pos => production_cell g turn pos.1 pos.2) []

/-- The player `game->players[id]` creates when `id` is not a key. `Player` is declared outside
the sources at hand; the value-initialised player is taken to have zero members and no entity. -/
def fresh_player : Player := ⟨0, 0, (0, 0), []⟩

/-- The statement `game->players[id].energy += amount`. -/
def credit (id : Int) (amount : Int) : List (Int × Player) → List (Int × Player)
  | [] => [(id, { fresh_player with energy := fresh_player.energy + amount })]
  | (k, p) :: ps =>
    if k = id then (k, { p with energy := p.energy + amount }) :: ps
    else (k, p) :: credit id amount ps

/-- `HaliteImpl::process_production()`. -/
def process_production (g : Game) : Game :=
  { g with players := (turn_production g).foldl (fun ps e => credit e.1 e.2 ps) g.players }

/-- The closest-entity set of the cell is not empty and all of it belongs to player `id`. -/
def solely_owned (g : Game) (id : Int) (pos : Location) : Bool :=
  decide (find_closest_entities g pos [] ≠ [] ∧
    ∀ r ∈ find_closest_entities g pos [], (g.world.store r).owner_id = id)

/-- The closest-entity set of the cell is not empty and its entities have one and the same
owner. -/
def single_owner (g : Game) (pos : Location) : Bool :=
  decide (find_closest_entities g pos [] ≠ [] ∧
    ∀ r ∈ find_closest_entities g pos [], ∀ r1 ∈ find_closest_entities g pos [],
      (g.world.store r).owner_id = (g.world.store r1).owner_id)

/-- The sum of the production capacities of the cells of the grid selected by `sel`. -/
def production_of (g : Game) (sel : Location → Bool) : Int :=
  (((scan_order g.world.game_map).filter sel).map
    fun pos => (g.world.game_map.cells pos).production).sum

/-- The player the body of the cell loop credits the cell to, if any. -/
def beneficiary (g : Game) (pos : Location) : Option Int :=
  match find_closest_entities g pos [] with
  | [] => none
  | front :: tail =>
    if multiple_close_players g.world.store (g.world.store front).owner_id (front :: tail)
    then none else some (g.world.store front).owner_id

/-- What the entries of a turn production under `id` add up to. -/
def tally (id : Int) (turn : List (Int × Int)) : Int :=
  ((turn.filter fun e => decide (e.1 = id)).map Prod.snd).sum

/-- A player with `amount` added to its balance. -/
def gain (p : Player) (amount : Int) : Player :=
  { p with energy := p.energy + amount }

/-- The entries of all players' entity maps, in the order `find_closest_entities` runs through
them. -/
def all_entries (players : List (Int × Player)) : List (Location × Ref) :=
  players.flatMap fun kp => kp.2.entities

/-- The smallest of `start` and the distances from the entries' locations to the cell. -/
def nearest (m : GameMap) (pos : Location) (start : Int) (es : List (Location × Ref)) : Int :=
  es.foldl (fun a e => min a (m.distance e.1 pos)) start

/-- The body of the two nested loops of `process_production` for the cell `(pos_x, pos_y)`,
with the function called at a tie left open; `production_cell` is the instance that calls
`process_tie`. -/
def production_cell_with (tie : Location → List Ref → List (Int × Int) → List (Int × Int))
    (g : Game) (turn_player_production : List (Int × Int)) (pos_x pos_y : Int) :
    List (Int × Int) :=
  let cell_location : Location := (pos_x, pos_y)
  let close_entities := find_closest_entities g cell_location []
  match close_entities with
  | [] => turn_player_production
  | front :: _ =>
    let first_player_id := (g.world.store front).owner_id
    if multiple_close_players g.world.store first_player_id close_entities then
      tie (pos_x, pos_y) close_entities turn_player_production
    else
      add_production first_player_id (g.world.game_map.cells (pos_x, pos_y)).production
        turn_player_production

/-- The body of the two nested loops of `process_production` for the cell `(pos_x, pos_y)`,
keeping next to the turn production the calls of `process_tie` made so far, each as the
location and the entity list it is passed. -/
def production_cell_traced (g : Game) (acc : List (Int × Int) × List (Location × List Ref))
    (pos_x pos_y : Int) : List (Int × Int) × List (Location × List Ref) :=
  let cell_location : Location := (pos_x, pos_y)
  let close_entities := find_closest_entities g cell_location []
  match close_entities with
  | [] => acc
  | front :: _ =>
    let first_player_id := (g.world.store front).owner_id
    if multiple_close_players g.world.store first_player_id close_entities then
      (process_tie (pos_x, pos_y) close_entities acc.1,
       acc.2 ++ [((pos_x, pos_y), close_entities)])
    else
      (add_production first_player_id (g.world.game_map.cells (pos_x, pos_y)).production acc.1,
       acc.2)

/-- `HaliteImpl::process_production()` with the calls of `process_tie` it makes, in order. -/
def process_production_traced (g : Game) : Game × List (Location × List Ref) :=
  let scanned := (scan_order g.world.game_map).foldl
    (fun acc pos => production_cell_traced g acc pos.1 pos.2) ([], [])
  ({ g with players := scanned.1.foldl (fun ps e => credit e.1 e.2 ps) g.players }, scanned.2)

/-- The calls of `process_tie` the cell body makes for one cell: none, or one with the cell's
location and its closest entities. -/
def tie_call (g : Game) (pos : Location) : List (Location × List Ref) :=
  match find_closest_entities g pos [] with
  | [] => []
  | front :: tail =>
    if multiple_close_players g.world.store (g.world.store front).owner_id (front :: tail)
    then [(pos, front :: tail)] else []

/-! ### Concrete states -/

/-- Tuning values of the scenarios: an entity is spawned with energy 2 for a cost of 10 and
loses 1 per turn. -/
def sample_constants : Constants := ⟨2, 10, 1⟩

/-- Modelled from the spec: `distance` of the game map is declared outside the sources at hand;
section 4.3 asks for the metric of the grid's wraparound topology, taken here per axis as the
shorter way round. -/
def torus_distance (width height : Int) (a b : Location) : Int :=
  min ((a.1 - b.1).natAbs : Int) (width - (a.1 - b.1).natAbs)
    + min ((a.2 - b.2).natAbs : Int) (height - (a.2 - b.2).natAbs)

/-- A 2 x 2 map on which no entity is registered; every cell produces 5. -/
def bare_map : GameMap :=
  { width := 2, height := 2, cells := fun _ => ⟨5, []⟩, distance := torus_distance 2 2 }

/-- A world without entity objects in use. -/
def bare_world : World := { game_map := bare_map, store := fun _ => ⟨0, 0⟩, next := 0 }

/-- The only player of `initial_game`: it can pay for one spawn and owns nothing yet. -/
def first_player : Player := ⟨1, 10, (0, 0), []⟩

/-- A game at its start: one player, no entity. -/
def initial_game : Game := { players := [(1, first_player)], world := bare_world }

/-- The game one turn of entity processing after `initial_game`: the player has spent its
balance on the entity at its factory, which has energy 1 left. -/
def second_turn_game : Game := process_entities sample_constants initial_game

/-- Two players on the 2 x 2 map, each with one entity: player 1 at `(0, 0)`, player 2 at
`(1, 1)`. The cells `(1, 0)` and `(0, 1)` are at distance 1 from both. -/
def duel_game : Game :=
  { players := [(1, ⟨1, 0, (0, 0), [((0, 0), 0)]⟩), (2, ⟨2, 0, (1, 1), [((1, 1), 1)]⟩)]
    world :=
      { game_map := (bare_map.register (0, 0) 1 0).register (1, 1) 2 1
        store := fun r => if r = 0 then ⟨1, 3⟩ else ⟨2, 3⟩
        next := 2 } }

/-- One player with one entity, of energy 10, at `(0, 0)` on the 2 x 2 map whose cells all
produce 5. -/
def lone_game : Game :=
  { players := [(1, ⟨1, 0, (0, 0), [((0, 0), 0)]⟩)]
    world :=
      { game_map := bare_map.register (0, 0) 1 0, store := fun _ => ⟨1, 10⟩, next := 1 } }

/-- Tuning values with which a new entity does not outlast its first decay: it is spawned with
energy 1 and loses 1 per turn. -/
def brief_constants : Constants := ⟨1, 10, 1⟩

/-! ## The map operations -/

theorem find_assign_self {κ ν : Type} [DecidableEq κ] (key : κ) (value : ν) (m : List (κ × ν)) :
    find key (assign key value m) = some value := by
  induction m with
  | nil => simp [assign, find]
  | cons e m ih =>
    obtain ⟨k, v⟩ := e
    by_cases h : k = key
    · simp [assign, find, h]
    · simp [assign, find, h, ih]

theorem find_assign_of_ne {κ ν : Type} [DecidableEq κ] (key key' : κ) (value : ν)
    (m : List (κ × ν)) (h : key' ≠ key) :
    find key' (assign key value m) = find key' m := by
  induction m with
  | nil => simp [assign, find, Ne.symm h]
  | cons e m ih =>
    obtain ⟨k, v⟩ := e
    by_cases hk : k = key
    · subst hk
      simp [assign, find, Ne.symm h]
    · by_cases hk' : k = key'
      · subst hk'
        simp [assign, find, hk]
      · simp [assign, find, hk, hk', ih]

/-! ## `spawn_entity` -/

theorem spawn_entity_of_some (c : Constants) (w : World) (player : Player) (location : Location)
    (entity : Ref) (h : find location player.entities = some entity) :
    spawn_entity c w player location
      = ({ w with store := add_energy w.store entity c.NEW_ENTITY_ENERGY }, player) := by
  simp only [spawn_entity, h]

theorem spawn_entity_of_none (c : Constants) (w : World) (player : Player) (location : Location)
    (h : find location player.entities = none) :
    spawn_entity c w player location
      = ({ game_map := w.game_map.register location player.player_id w.next
           store := set_entity w.store w.next ⟨player.player_id, c.NEW_ENTITY_ENERGY⟩
           next := w.next + 1 },
         { player with entities := assign location w.next player.entities }) := by
  simp only [spawn_entity, h]

/-- C1: when the player already has an entity at the location, `spawn_entity` adds exactly
`NEW_ENTITY_ENERGY` to that entity's energy (its owner stays), allocates no entity object,
leaves the player (hence its entity map) and the whole map (hence the cell at the location) as
they were, and leaves every other entity object untouched. -/
theorem spawn_entity_merge (c : Constants) (w : World) (player : Player) (location : Location)
    (entity : Ref) (h : find location player.entities = some entity) :
    ((spawn_entity c w player location).1.store entity).energy
        = (w.store entity).energy + c.NEW_ENTITY_ENERGY ∧
    ((spawn_entity c w player location).1.store entity).owner_id = (w.store entity).owner_id ∧
    (spawn_entity c w player location).1.next = w.next ∧
    (spawn_entity c w player location).2 = player ∧
    (spawn_entity c w player location).1.game_map = w.game_map ∧
    ∀ r : Ref, r ≠ entity → (spawn_entity c w player location).1.store r = w.store r := by
  rw [spawn_entity_of_some c w player location entity h]
  refine ⟨?_, ?_, rfl, rfl, rfl, ?_⟩
  · simp [add_energy, set_entity]
  · simp [add_energy, set_entity]
  · intro r hr
    simp [add_energy, set_entity, hr]

/-- C2: when the player has no entity at the location, `spawn_entity` puts a fresh entity
object, owned by the player and with energy `NEW_ENTITY_ENERGY`, into the player's entity map
at the location and into the cell at the location under the player's id; the other entries of
the player's map and of the grid, the productions, the map's dimensions and distance, the
player's other members and the entity objects that existed are unchanged. -/
theorem spawn_entity_fresh (c : Constants) (w : World) (player : Player) (location : Location)
    (h : find location player.entities = none) :
    find location (spawn_entity c w player location).2.entities = some w.next ∧
    (spawn_entity c w player location).1.store w.next
        = ⟨player.player_id, c.NEW_ENTITY_ENERGY⟩ ∧
    find player.player_id ((spawn_entity c w player location).1.game_map.cells location).entities
        = some w.next ∧
    (∀ l : Location, l ≠ location →
        find l (spawn_entity c w player location).2.entities = find l player.entities) ∧
    (∀ (l : Location) (id : Int), l ≠ location ∨ id ≠ player.player_id →
        find id ((spawn_entity c w player location).1.game_map.cells l).entities
          = find id (w.game_map.cells l).entities) ∧
    (∀ l : Location, ((spawn_entity c w player location).1.game_map.cells l).production
        = (w.game_map.cells l).production) ∧
    (spawn_entity c w player location).1.game_map.width = w.game_map.width ∧
    (spawn_entity c w player location).1.game_map.height = w.game_map.height ∧
    (spawn_entity c w player location).1.game_map.distance = w.game_map.distance ∧
    (spawn_entity c w player location).2.player_id = player.player_id ∧
    (spawn_entity c w player location).2.energy = player.energy ∧
    (spawn_entity c w player location).2.factory_location = player.factory_location ∧
    (spawn_entity c w player location).1.next = w.next + 1 ∧
    ∀ r : Ref, r ≠ w.next → (spawn_entity c w player location).1.store r = w.store r := by
  rw [spawn_entity_of_none c w player location h]
  refine ⟨find_assign_self _ _ _, by simp [set_entity], ?_, ?_, ?_, ?_, rfl, rfl, rfl, rfl, rfl,
    rfl, rfl, ?_⟩
  · simp [GameMap.register, find_assign_self]
  · intro l hl
    exact find_assign_of_ne _ _ _ _ hl
  · intro l id hne
    by_cases hl : l = location
    · subst hl
      have hid : id ≠ player.player_id := by
        rcases hne with h1 | h1
        · exact absurd rfl h1
        · exact h1
      simp [GameMap.register, find_assign_of_ne _ _ _ _ hid]
    · simp [GameMap.register, hl]
  · intro l
    by_cases hl : l = location
    · simp [GameMap.register, hl]
    · simp [GameMap.register, hl]
  · intro r hr
    simp [set_entity, hr]

/-- A player whose id is not shared is told apart from every other player by that id. -/
theorem player_id_ne_of_nodup (pre post : List (Int × Player)) (k : Int) (p : Player)
    (hid : ((pre ++ (k, p) :: post).map (fun kp => kp.2.player_id)).Nodup) :
    ∀ kp, kp ∈ pre ∨ kp ∈ post → kp.2.player_id ≠ p.player_id := by
  intro kp hkp heq
  rw [List.map_append, List.map_cons, List.nodup_middle, List.nodup_cons] at hid
  apply hid.1
  rw [← heq, List.mem_append]
  rcases hkp with hkp | hkp
  · exact Or.inl (List.mem_map_of_mem (fun kp => kp.2.player_id) hkp)
  · exact Or.inr (List.mem_map_of_mem (fun kp => kp.2.player_id) hkp)

theorem cells_register_find (m : GameMap) (location l : Location) (id id' : Int) (entity : Ref) :
    find id' ((m.register location id entity).cells l).entities
      = if l = location ∧ id' = id then some entity else find id' (m.cells l).entities := by
  by_cases hl : l = location
  · subst hl
    by_cases hi : id' = id
    · subst hi
      simp [GameMap.register, find_assign_self]
    · simp [GameMap.register, find_assign_of_ne _ _ _ _ hi, hi]
  · simp [GameMap.register, hl]

/-- When the players' `player_id`s are pairwise distinct, `spawn_entity` for a player of the
game at any location keeps the player-map/grid consistency. -/
theorem spawn_entity_consistent (c : Constants) (w : World) (pre post : List (Int × Player))
    (k : Int) (p : Player) (location : Location)
    (hid : ((pre ++ (k, p) :: post).map (fun kp => kp.2.player_id)).Nodup)
    (h : Consistent (pre ++ (k, p) :: post) w.game_map) :
    Consistent (pre ++ (k, (spawn_entity c w p location).2) :: post)
      (spawn_entity c w p location).1.game_map := by
  cases hf : find location p.entities with
  | some e =>
    rw [spawn_entity_of_some c w p location e hf]
    exact h
  | none =>
    rw [spawn_entity_of_none c w p location hf]
    have hne := player_id_ne_of_nodup pre post k p hid
    obtain ⟨hfw, hbw⟩ := h
    have other : ∀ kp, kp ∈ pre ∨ kp ∈ post → ∀ (l : Location) (r : Ref),
        find l kp.2.entities = some r →
        find kp.2.player_id ((w.game_map.register location p.player_id w.next).cells l).entities
          = some r := by
      intro kp hkp l r hfind
      have hmem : kp ∈ pre ++ (k, p) :: post := by
        rw [List.mem_append, List.mem_cons]
        rcases hkp with hkp | hkp
        · exact Or.inl hkp
        · exact Or.inr (Or.inr hkp)
      rw [cells_register_find, if_neg (fun hc => hne kp hkp hc.2)]
      exact hfw kp hmem l r hfind
    constructor
    · intro kp hkp l r hfind
      rw [List.mem_append, List.mem_cons] at hkp
      rcases hkp with hkp | hkp | hkp
      · exact other kp (Or.inl hkp) l r hfind
      · subst hkp
        rw [cells_register_find]
        by_cases hl : l = location
        · subst hl
          have hr : find l (assign l w.next p.entities) = some r := hfind
          rw [find_assign_self] at hr
          simp [hr]
        · have hr : find l (assign location w.next p.entities) = some r := hfind
          rw [find_assign_of_ne _ _ _ _ hl] at hr
          rw [if_neg (fun hc => hl hc.1)]
          exact hfw (k, p) (by simp) l r hr
      · exact other kp (Or.inr hkp) l r hfind
    · intro l id r hfind
      rw [cells_register_find] at hfind
      by_cases hc : l = location ∧ id = p.player_id
      · rw [if_pos hc] at hfind
        obtain ⟨hl, hi⟩ := hc
        subst hl
        subst hi
        refine ⟨(k, { p with entities := assign l w.next p.entities }),
          List.mem_append_right _ (List.mem_cons_self _ _), rfl, ?_⟩
        rw [← hfind]
        exact find_assign_self _ _ _
      · rw [if_neg hc] at hfind
        obtain ⟨kp, hkp, hkid, hke⟩ := hbw l id r hfind
        rw [List.mem_append, List.mem_cons] at hkp
        rcases hkp with hkp | hkp | hkp
        · exact ⟨kp, by simp [hkp], hkid, hke⟩
        · subst hkp
          refine ⟨(k, { p with entities := assign location w.next p.entities }),
            List.mem_append_right _ (List.mem_cons_self _ _), hkid, ?_⟩
          have hl : l ≠ location := by
            intro hl
            subst hl
            rw [hf] at hke
            exact Option.noConfusion hke
          show find l (assign location w.next p.entities) = some r
          rw [find_assign_of_ne _ _ _ _ hl]
          exact hke
        · exact ⟨kp, by simp [hkp], hkid, hke⟩

/-! ## The decay loop of `process_entities` -/

theorem decay_entities_store_eq (c : Constants) (st : Ref → Entity) (l : Location) (r : Ref)
    (es : List (Location × Ref)) :
    (decay_entities c st ((l, r) :: es)).1
      = (decay_entities c (add_energy st r (-c.BASE_TURN_ENERGY_LOSS)) es).1 := by
  simp only [decay_entities]
  split <;> rfl

theorem add_energy_loss_self (c : Constants) (st : Ref → Entity) (r : Ref) :
    add_energy st r (-c.BASE_TURN_ENERGY_LOSS) r = decayed c (st r) := by
  simp [add_energy, set_entity, decayed, Int.sub_eq_add_neg]

theorem add_energy_of_ne (st : Ref → Entity) (r r' : Ref) (delta : Int) (h : r' ≠ r) :
    add_energy st r delta r' = st r' := by
  simp [add_energy, set_entity, h]

/-- When the entries hold pairwise different entity objects, the inner decay loop takes the
base loss from each of them once and from no other object. -/
theorem decay_entities_store (c : Constants) (st : Ref → Entity) (es : List (Location × Ref))
    (h : (es.map Prod.snd).Nodup) (r : Ref) :
    (decay_entities c st es).1 r
      = if r ∈ es.map Prod.snd then decayed c (st r) else st r := by
  induction es generalizing st with
  | nil => simp [decay_entities]
  | cons e es ih =>
    obtain ⟨l, r0⟩ := e
    rw [List.map_cons, List.nodup_cons] at h
    obtain ⟨hr0, hes⟩ := h
    rw [decay_entities_store_eq, ih _ hes]
    by_cases hr : r = r0
    · subst hr
      simp [hr0, add_energy_loss_self]
    · by_cases hm : r ∈ es.map Prod.snd
      · simp [hr, hm, add_energy_of_ne]
      · simp [hr, hm, add_energy_of_ne]

/-- When the entries hold pairwise different entity objects, the inner decay loop keeps exactly
the entries whose entity has energy left after the loss. -/
theorem decay_entities_entries (c : Constants) (st : Ref → Entity) (es : List (Location × Ref))
    (h : (es.map Prod.snd).Nodup) :
    (decay_entities c st es).2 = survivors c st es := by
  induction es generalizing st with
  | nil => simp [decay_entities, survivors]
  | cons e es ih =>
    obtain ⟨l, r0⟩ := e
    rw [List.map_cons, List.nodup_cons] at h
    obtain ⟨hr0, hes⟩ := h
    have hrest : (decay_entities c (add_energy st r0 (-c.BASE_TURN_ENERGY_LOSS)) es).2
        = survivors c st es := by
      rw [ih _ hes]
      apply List.filter_congr
      intro x hx
      have hne : x.2 ≠ r0 := by
        intro hc
        apply hr0
        exact List.mem_map.mpr ⟨x, hx, hc⟩
      rw [add_energy_of_ne _ _ _ _ hne]
    simp only [decay_entities, add_energy_loss_self, survivors, List.filter_cons]
    by_cases hle : (decayed c (st r0)).energy ≤ 0
    · have hlt : ¬ 0 < (decayed c (st r0)).energy := not_lt.mpr hle
      simpa [hle, hlt, survivors] using hrest
    · have hlt : 0 < (decayed c (st r0)).energy := not_le.mp hle
      simpa [hle, hlt, survivors] using hrest

theorem entity_refs_cons (k : Int) (p : Player) (ps : List (Int × Player)) :
    entity_refs ((k, p) :: ps) = p.entities.map Prod.snd ++ entity_refs ps := rfl

theorem mem_entity_refs (ps : List (Int × Player)) (r : Ref) :
    r ∈ entity_refs ps ↔ ∃ kp ∈ ps, ∃ l : Location, (l, r) ∈ kp.2.entities := by
  induction ps with
  | nil => simp [entity_refs]
  | cons kp ps ih =>
    obtain ⟨k, p⟩ := kp
    rw [entity_refs_cons, List.mem_append, ih]
    constructor
    · rintro (h | ⟨kq, hkq, l, hl⟩)
      · obtain ⟨e, he, rfl⟩ := List.mem_map.mp h
        exact ⟨(k, p), List.mem_cons_self _ _, e.1, he⟩
      · exact ⟨kq, List.mem_cons_of_mem _ hkq, l, hl⟩
    · rintro ⟨kq, hkq, l, hl⟩
      rcases List.mem_cons.mp hkq with rfl | hkq
      · exact Or.inl (List.mem_map.mpr ⟨(l, r), hl, rfl⟩)
      · exact Or.inr ⟨kq, hkq, l, hl⟩

/-- The outer decay loop, when no entity object is held under two entries: every object held
loses the base energy once. -/
theorem decay_pass_store (c : Constants) (st : Ref → Entity) (ps : List (Int × Player))
    (h : (entity_refs ps).Nodup) (r : Ref) :
    (decay_pass c st ps).1 r = if r ∈ entity_refs ps then decayed c (st r) else st r := by
  induction ps generalizing st with
  | nil => simp [decay_pass, entity_refs]
  | cons kp ps ih =>
    obtain ⟨k, p⟩ := kp
    rw [entity_refs_cons, List.nodup_append] at h
    obtain ⟨hp, hps, hdis⟩ := h
    have hstep : (decay_pass c st ((k, p) :: ps)).1
        = (decay_pass c (decay_entities c st p.entities).1 ps).1 := rfl
    rw [hstep, ih _ hps, decay_entities_store c st p.entities hp, entity_refs_cons]
    by_cases h1 : r ∈ p.entities.map Prod.snd
    · have h2 : r ∉ entity_refs ps := fun hc => hdis h1 hc
      simp [h1, h2]
    · simp [h1]

/-- The outer decay loop, when no entity object is held under two entries: every player keeps
exactly the entries whose entity has energy left after the loss. -/
theorem decay_pass_players (c : Constants) (st : Ref → Entity) (ps : List (Int × Player))
    (h : (entity_refs ps).Nodup) :
    (decay_pass c st ps).2
      = ps.map (fun kp => (kp.1, { kp.2 with entities := survivors c st kp.2.entities })) := by
  induction ps generalizing st with
  | nil => simp [decay_pass]
  | cons kp ps ih =>
    obtain ⟨k, p⟩ := kp
    rw [entity_refs_cons, List.nodup_append] at h
    obtain ⟨hp, hps, hdis⟩ := h
    have hstep : (decay_pass c st ((k, p) :: ps)).2
        = (k, { p with entities := (decay_entities c st p.entities).2 })
            :: (decay_pass c (decay_entities c st p.entities).1 ps).2 := rfl
    rw [hstep, ih _ hps, decay_entities_entries c st p.entities hp, List.map_cons]
    congr 1
    apply List.map_congr_left
    intro kq hkq
    have hsurv : survivors c (decay_entities c st p.entities).1 kq.2.entities
        = survivors c st kq.2.entities := by
      apply List.filter_congr
      intro x hx
      have hx2 : x.2 ∈ entity_refs ps := (mem_entity_refs ps x.2).mpr ⟨kq, hkq, x.1, hx⟩
      have hx1 : x.2 ∉ p.entities.map Prod.snd := fun hc => hdis hc hx2
      rw [decay_entities_store c st p.entities hp, if_neg hx1]
    rw [hsurv]

theorem process_entities_players (c : Constants) (g : Game) :
    (process_entities c g).players
      = (decay_pass c (after_spawn c g).world.store (after_spawn c g).players).2 := rfl

theorem process_entities_store (c : Constants) (g : Game) :
    (process_entities c g).world.store
      = (decay_pass c (after_spawn c g).world.store (after_spawn c g).players).1 := rfl

/-- The decay loop on the state the spawn loop leaves: when no entity object is held under two
entries of the players' entity maps there, `process_entities` takes `BASE_TURN_ENERGY_LOSS`
exactly once from every entity held. -/
theorem process_entities_decays_once (c : Constants) (g : Game)
    (h : (entity_refs (after_spawn c g).players).Nodup) : DecaysOnce c g := by
  have hst := decay_pass_store c (after_spawn c g).world.store (after_spawn c g).players h
  have hpl := decay_pass_players c (after_spawn c g).world.store (after_spawn c g).players h
  constructor
  · intro i k p hi
    refine ⟨{ p with entities := survivors c (after_spawn c g).world.store p.entities }, ?_, ?_⟩
    · rw [process_entities_players, hpl, List.getElem?_map, hi]
      rfl
    · intro l r hlr
      have hr : r ∈ entity_refs (after_spawn c g).players :=
        (mem_entity_refs _ r).mpr ⟨(k, p), List.getElem?_mem hi, l, hlr⟩
      have hsr : (process_entities c g).world.store r
          = decayed c ((after_spawn c g).world.store r) := by
        rw [process_entities_store, hst, if_pos hr]
      refine ⟨by rw [hsr]; rfl, by rw [hsr]; rfl, ?_, ?_⟩
      · intro hpos
        exact List.mem_filter.mpr ⟨hlr, decide_eq_true hpos⟩
      · intro hle l1 hmem
        have hpos : 0 < (decayed c ((after_spawn c g).world.store r)).energy :=
          of_decide_eq_true (List.mem_filter.mp hmem).2
        exact absurd hpos (not_lt.mpr hle)
  · intro kq hkq e he
    rw [process_entities_players, hpl] at hkq
    obtain ⟨kp, hkp, rfl⟩ := List.mem_map.mp hkq
    obtain ⟨hmem, hpos⟩ := List.mem_filter.mp he
    have hr : e.2 ∈ entity_refs (after_spawn c g).players :=
      (mem_entity_refs _ e.2).mpr ⟨kp, hkp, e.1, hmem⟩
    rw [process_entities_store, hst, if_pos hr]
    exact of_decide_eq_true hpos

/-! ## The spawn loop of `process_entities` -/

theorem getElem?_middle {α : Type} (l₁ l₂ : List α) (a : α) :
    (l₁ ++ a :: l₂)[l₁.length]? = some a := by
  rw [List.getElem?_append_right (Nat.le_refl _), Nat.sub_self, List.getElem?_cons_zero]

theorem spawn_entity_energy (c : Constants) (w : World) (p : Player) (location : Location) :
    (spawn_entity c w p location).2.energy = p.energy := by
  cases hf : find location p.entities with
  | some e => rw [spawn_entity_of_some c w p location e hf]
  | none => rw [spawn_entity_of_none c w p location hf]

theorem spawn_entity_player_id (c : Constants) (w : World) (p : Player) (location : Location) :
    (spawn_entity c w p location).2.player_id = p.player_id := by
  cases hf : find location p.entities with
  | some e => rw [spawn_entity_of_some c w p location e hf]
  | none => rw [spawn_entity_of_none c w p location hf]

theorem spawn_entity_factory_location (c : Constants) (w : World) (p : Player)
    (location : Location) :
    (spawn_entity c w p location).2.factory_location = p.factory_location := by
  cases hf : find location p.entities with
  | some e => rw [spawn_entity_of_some c w p location e hf]
  | none => rw [spawn_entity_of_none c w p location hf]

theorem spawn_step_of_ge (c : Constants) (w : World) (p : Player)
    (h : c.NEW_ENTITY_ENERGY_COST ≤ p.energy) :
    spawn_step c w p
      = spawn_entity c w { p with energy := p.energy - c.NEW_ENTITY_ENERGY_COST }
          p.factory_location := by
  unfold spawn_step
  rw [if_pos (ge_iff_le.mpr h)]

theorem spawn_step_of_lt (c : Constants) (w : World) (p : Player)
    (h : p.energy < c.NEW_ENTITY_ENERGY_COST) : spawn_step c w p = (w, p) := by
  unfold spawn_step
  rw [if_neg (not_le.mpr h)]

theorem spawn_pass_cons (c : Constants) (w : World) (k : Int) (p : Player)
    (ps : List (Int × Player)) :
    spawn_pass c w ((k, p) :: ps)
      = ((spawn_pass c (spawn_step c w p).1 ps).1,
         (k, (spawn_step c w p).2) :: (spawn_pass c (spawn_step c w p).1 ps).2) := rfl

theorem spawn_pass_append (c : Constants) (w : World) (a b : List (Int × Player)) :
    spawn_pass c w (a ++ b)
      = ((spawn_pass c (spawn_pass c w a).1 b).1,
         (spawn_pass c w a).2 ++ (spawn_pass c (spawn_pass c w a).1 b).2) := by
  induction a generalizing w with
  | nil => rfl
  | cons kp a ih =>
    obtain ⟨k, p⟩ := kp
    rw [List.cons_append, spawn_pass_cons, ih, spawn_pass_cons]
    rfl

theorem spawn_pass_length (c : Constants) (w : World) (ps : List (Int × Player)) :
    (spawn_pass c w ps).2.length = ps.length := by
  induction ps generalizing w with
  | nil => rfl
  | cons kp ps ih =>
    obtain ⟨k, p⟩ := kp
    rw [spawn_pass_cons, List.length_cons, List.length_cons, ih]

theorem decay_pass_cons (c : Constants) (st : Ref → Entity) (k : Int) (p : Player)
    (ps : List (Int × Player)) :
    decay_pass c st ((k, p) :: ps)
      = ((decay_pass c (decay_entities c st p.entities).1 ps).1,
         (k, { p with entities := (decay_entities c st p.entities).2 })
           :: (decay_pass c (decay_entities c st p.entities).1 ps).2) := rfl

theorem decay_pass_append (c : Constants) (st : Ref → Entity) (a b : List (Int × Player)) :
    decay_pass c st (a ++ b)
      = ((decay_pass c (decay_pass c st a).1 b).1,
         (decay_pass c st a).2 ++ (decay_pass c (decay_pass c st a).1 b).2) := by
  induction a generalizing st with
  | nil => rfl
  | cons kp a ih =>
    obtain ⟨k, p⟩ := kp
    rw [List.cons_append, decay_pass_cons, ih, decay_pass_cons]
    rfl

theorem decay_pass_length (c : Constants) (st : Ref → Entity) (ps : List (Int × Player)) :
    (decay_pass c st ps).2.length = ps.length := by
  induction ps generalizing st with
  | nil => rfl
  | cons kp ps ih =>
    obtain ⟨k, p⟩ := kp
    rw [decay_pass_cons, List.length_cons, List.length_cons, ih]

/-- The player at a position of the registry after the decay loop: the player that was there,
with the inner decay loop run on its entity map from the store the loop had reached. -/
theorem decay_pass_middle (c : Constants) (st : Ref → Entity) (pre post : List (Int × Player))
    (k : Int) (p : Player) :
    (decay_pass c st (pre ++ (k, p) :: post)).2[pre.length]?
      = some (k, { p with entities :=
          (decay_entities c (decay_pass c st pre).1 p.entities).2 }) := by
  rw [decay_pass_append, decay_pass_cons]
  have hl := decay_pass_length c st pre
  rw [← hl]
  exact getElem?_middle _ _ _

theorem decay_entities_sublist (c : Constants) (st : Ref → Entity) (es : List (Location × Ref)) :
    (decay_entities c st es).2.Sublist es := by
  induction es generalizing st with
  | nil => exact List.Sublist.refl _
  | cons e es ih =>
    obtain ⟨l, r⟩ := e
    simp only [decay_entities]
    split
    · exact List.Sublist.cons _ (ih _)
    · exact List.Sublist.cons₂ _ (ih _)

theorem mem_of_find {κ ν : Type} [DecidableEq κ] (key : κ) (value : ν) (m : List (κ × ν))
    (h : find key m = some value) : (key, value) ∈ m := by
  induction m with
  | nil => simp [find] at h
  | cons e m ih =>
    obtain ⟨k, v⟩ := e
    by_cases hk : k = key
    · subst hk
      simp only [find, if_true, Option.some.injEq] at h
      subst h
      exact List.mem_cons_self _ _
    · simp only [find, hk, if_false] at h
      exact List.mem_cons_of_mem _ (ih h)

theorem find_none_of_not_mem {κ ν : Type} [DecidableEq κ] (key : κ) (m : List (κ × ν))
    (h : ∀ value : ν, (key, value) ∉ m) : find key m = none := by
  cases hf : find key m with
  | none => rfl
  | some v => exact absurd (mem_of_find key v m hf) (h v)

theorem not_mem_of_find_none {κ ν : Type} [DecidableEq κ] (key : κ) (m : List (κ × ν))
    (h : find key m = none) : ∀ value : ν, (key, value) ∉ m := by
  induction m with
  | nil => simp
  | cons e m ih =>
    obtain ⟨k, v⟩ := e
    by_cases hk : k = key
    · simp [find, hk] at h
    · simp only [find, hk, if_false] at h
      intro value hmem
      rcases List.mem_cons.mp hmem with heq | hmem
      · exact hk (Prod.mk.inj heq).1.symm
      · exact ih h value hmem

/-- The decay loop puts no entity where the player had none. -/
theorem decay_entities_find_none (c : Constants) (st : Ref → Entity)
    (es : List (Location × Ref)) (l : Location) (h : find l es = none) :
    find l (decay_entities c st es).2 = none := by
  apply find_none_of_not_mem
  intro r hmem
  exact not_mem_of_find_none l es h r ((decay_entities_sublist c st es).subset hmem)

theorem after_spawn_eq (c : Constants) (g : Game) :
    after_spawn c g
      = { players := (spawn_pass c g.world g.players).2, world := (spawn_pass c g.world g.players).1 } :=
  rfl

/-- C8: a player whose balance is at least `NEW_ENTITY_ENERGY_COST` has, after
`process_entities`, exactly the old balance minus the cost, whatever entities it owns; and the
state the decay loop starts from is the one in which `spawn_entity` has been applied to that
player (with the cost deducted) at its factory location, between the spawn rounds of the
players before it and of the players after it. -/
theorem process_entities_spawns (c : Constants) (g : Game) (pre post : List (Int × Player))
    (k : Int) (p : Player) (hg : g.players = pre ++ (k, p) :: post)
    (he : c.NEW_ENTITY_ENERGY_COST ≤ p.energy) :
    (∃ q : Player, (process_entities c g).players[pre.length]? = some (k, q) ∧
      q.energy = p.energy - c.NEW_ENTITY_ENERGY_COST) ∧
    (after_spawn c g).players
      = (spawn_pass c g.world pre).2
        ++ (k, (spawn_entity c (spawn_pass c g.world pre).1
              { p with energy := p.energy - c.NEW_ENTITY_ENERGY_COST } p.factory_location).2)
        :: (spawn_pass c (spawn_entity c (spawn_pass c g.world pre).1
              { p with energy := p.energy - c.NEW_ENTITY_ENERGY_COST } p.factory_location).1
            post).2 ∧
    (after_spawn c g).world
      = (spawn_pass c (spawn_entity c (spawn_pass c g.world pre).1
            { p with energy := p.energy - c.NEW_ENTITY_ENERGY_COST } p.factory_location).1
          post).1 ∧
    process_entities c g = decay c (after_spawn c g) := by
  have hs : spawn_pass c g.world g.players
      = ((spawn_pass c (spawn_entity c (spawn_pass c g.world pre).1
              { p with energy := p.energy - c.NEW_ENTITY_ENERGY_COST } p.factory_location).1
            post).1,
         (spawn_pass c g.world pre).2
          ++ (k, (spawn_entity c (spawn_pass c g.world pre).1
              { p with energy := p.energy - c.NEW_ENTITY_ENERGY_COST } p.factory_location).2)
          :: (spawn_pass c (spawn_entity c (spawn_pass c g.world pre).1
              { p with energy := p.energy - c.NEW_ENTITY_ENERGY_COST } p.factory_location).1
            post).2) := by
    rw [hg, spawn_pass_append, spawn_pass_cons, spawn_step_of_ge c _ p he]
  have hp : (after_spawn c g).players = (spawn_pass c g.world g.players).2 := rfl
  have hw : (after_spawn c g).world = (spawn_pass c g.world g.players).1 := rfl
  have hq := decay_pass_middle c (after_spawn c g).world.store (spawn_pass c g.world pre).2
    (spawn_pass c (spawn_entity c (spawn_pass c g.world pre).1
      { p with energy := p.energy - c.NEW_ENTITY_ENERGY_COST } p.factory_location).1 post).2 k
    (spawn_entity c (spawn_pass c g.world pre).1
      { p with energy := p.energy - c.NEW_ENTITY_ENERGY_COST } p.factory_location).2
  have hpl : (process_entities c g).players
      = (decay_pass c (after_spawn c g).world.store
          ((spawn_pass c g.world pre).2
            ++ (k, (spawn_entity c (spawn_pass c g.world pre).1
                { p with energy := p.energy - c.NEW_ENTITY_ENERGY_COST } p.factory_location).2)
            :: (spawn_pass c (spawn_entity c (spawn_pass c g.world pre).1
                { p with energy := p.energy - c.NEW_ENTITY_ENERGY_COST } p.factory_location).1
              post).2)).2 := by
    rw [process_entities_players, hp, hs]
  rw [← hpl, spawn_pass_length] at hq
  exact ⟨⟨_, hq, spawn_entity_energy c _ _ _⟩, by rw [hp, hs], by rw [hw, hs], rfl⟩

/-- C9: a player whose balance is below `NEW_ENTITY_ENERGY_COST` is skipped by the spawn loop
and nothing fails: after `process_entities` its balance is the old one and it has no entity at
a location where it had none; the spawn rounds of the other players run as they would without
that player, and the decay loop runs on the state they leave, with the player put back as it
was. -/
theorem process_entities_skips (c : Constants) (g : Game) (pre post : List (Int × Player))
    (k : Int) (p : Player) (hg : g.players = pre ++ (k, p) :: post)
    (he : p.energy < c.NEW_ENTITY_ENERGY_COST) :
    (∃ q : Player, (process_entities c g).players[pre.length]? = some (k, q) ∧
      q.energy = p.energy ∧
      ∀ l : Location, find l p.entities = none → find l q.entities = none) ∧
    (after_spawn c g).players
      = (spawn_pass c g.world pre).2
        ++ (k, p) :: (spawn_pass c (spawn_pass c g.world pre).1 post).2 ∧
    (after_spawn c g).world = (spawn_pass c g.world (pre ++ post)).1 ∧
    (spawn_pass c g.world (pre ++ post)).2
      = (spawn_pass c g.world pre).2 ++ (spawn_pass c (spawn_pass c g.world pre).1 post).2 ∧
    process_entities c g = decay c (after_spawn c g) := by
  have hs : spawn_pass c g.world g.players
      = ((spawn_pass c (spawn_pass c g.world pre).1 post).1,
         (spawn_pass c g.world pre).2
          ++ (k, p) :: (spawn_pass c (spawn_pass c g.world pre).1 post).2) := by
    rw [hg, spawn_pass_append, spawn_pass_cons, spawn_step_of_lt c _ p he]
  have hp : (after_spawn c g).players = (spawn_pass c g.world g.players).2 := rfl
  have hw : (after_spawn c g).world = (spawn_pass c g.world g.players).1 := rfl
  have hq := decay_pass_middle c (after_spawn c g).world.store (spawn_pass c g.world pre).2
    (spawn_pass c (spawn_pass c g.world pre).1 post).2 k p
  have hpl : (process_entities c g).players
      = (decay_pass c (after_spawn c g).world.store
          ((spawn_pass c g.world pre).2
            ++ (k, p) :: (spawn_pass c (spawn_pass c g.world pre).1 post).2)).2 := by
    rw [process_entities_players, hp, hs]
  rw [← hpl, spawn_pass_length] at hq
  exact ⟨⟨_, hq, rfl, fun l hl => decay_entities_find_none c _ _ l hl⟩, by rw [hp, hs],
    by rw [hw, hs, spawn_pass_append], by rw [spawn_pass_append], rfl⟩

/-! ## Player balances stay non-negative -/

theorem spawn_step_energy_nonneg (c : Constants) (w : World) (p : Player) (h : 0 ≤ p.energy) :
    0 ≤ (spawn_step c w p).2.energy := by
  by_cases hc : c.NEW_ENTITY_ENERGY_COST ≤ p.energy
  · rw [spawn_step_of_ge c w p hc, spawn_entity_energy]
    exact Int.sub_nonneg_of_le hc
  · rw [spawn_step_of_lt c w p (not_le.mp hc)]
    exact h

theorem spawn_pass_energy_nonneg (c : Constants) (w : World) (ps : List (Int × Player))
    (h : ∀ kp ∈ ps, 0 ≤ kp.2.energy) : ∀ kp ∈ (spawn_pass c w ps).2, 0 ≤ kp.2.energy := by
  induction ps generalizing w with
  | nil =>
    intro kp hkp
    exact absurd hkp (List.not_mem_nil _)
  | cons kq ps ih =>
    obtain ⟨k, p⟩ := kq
    intro kp hkp
    rw [spawn_pass_cons] at hkp
    rcases List.mem_cons.mp hkp with rfl | hkp
    · exact spawn_step_energy_nonneg c w p (h (k, p) (List.mem_cons_self _ _))
    · exact ih _ (fun kq hkq => h kq (List.mem_cons_of_mem _ hkq)) kp hkp

theorem decay_pass_energy_nonneg (c : Constants) (st : Ref → Entity) (ps : List (Int × Player))
    (h : ∀ kp ∈ ps, 0 ≤ kp.2.energy) : ∀ kp ∈ (decay_pass c st ps).2, 0 ≤ kp.2.energy := by
  induction ps generalizing st with
  | nil =>
    intro kp hkp
    exact absurd hkp (List.not_mem_nil _)
  | cons kq ps ih =>
    obtain ⟨k, p⟩ := kq
    intro kp hkp
    rw [decay_pass_cons] at hkp
    rcases List.mem_cons.mp hkp with rfl | hkp
    · exact h (k, p) (List.mem_cons_self _ _)
    · exact ih _ (fun kq hkq => h kq (List.mem_cons_of_mem _ hkq)) kp hkp

theorem add_production_nonneg (id amount : Int) (turn : List (Int × Int)) (ha : 0 ≤ amount)
    (h : ∀ e ∈ turn, 0 ≤ e.2) : ∀ e ∈ add_production id amount turn, 0 ≤ e.2 := by
  induction turn with
  | nil =>
    intro e he
    simp only [add_production, List.mem_singleton] at he
    subst he
    simpa using ha
  | cons e0 turn ih =>
    obtain ⟨k, v⟩ := e0
    intro e he
    have hv : 0 ≤ v := h (k, v) (List.mem_cons_self _ _)
    by_cases hk : k = id
    · simp only [add_production, hk, if_true] at he
      rcases List.mem_cons.mp he with rfl | he
      · exact Int.add_nonneg hv ha
      · exact h e (List.mem_cons_of_mem _ he)
    · simp only [add_production, hk, if_false] at he
      rcases List.mem_cons.mp he with rfl | he
      · exact hv
      · exact ih (fun e he => h e (List.mem_cons_of_mem _ he)) e he

theorem production_cell_of_nil (g : Game) (turn : List (Int × Int)) (pos_x pos_y : Int)
    (h : find_closest_entities g (pos_x, pos_y) [] = []) :
    production_cell g turn pos_x pos_y = turn := by
  simp only [production_cell, h]

theorem production_cell_of_cons (g : Game) (turn : List (Int × Int)) (pos_x pos_y : Int)
    (front : Ref) (tail : List Ref)
    (h : find_closest_entities g (pos_x, pos_y) [] = front :: tail) :
    production_cell g turn pos_x pos_y
      = if multiple_close_players g.world.store (g.world.store front).owner_id (front :: tail)
        then turn
        else add_production (g.world.store front).owner_id
          (g.world.game_map.cells (pos_x, pos_y)).production turn := by
  simp only [production_cell, h, process_tie]

theorem production_cell_nonneg (g : Game) (turn : List (Int × Int)) (pos_x pos_y : Int)
    (hp : 0 ≤ (g.world.game_map.cells (pos_x, pos_y)).production)
    (h : ∀ e ∈ turn, 0 ≤ e.2) : ∀ e ∈ production_cell g turn pos_x pos_y, 0 ≤ e.2 := by
  cases hc : find_closest_entities g (pos_x, pos_y) [] with
  | nil =>
    rw [production_cell_of_nil g turn pos_x pos_y hc]
    exact h
  | cons front tail =>
    rw [production_cell_of_cons g turn pos_x pos_y front tail hc]
    split
    · exact h
    · exact add_production_nonneg _ _ _ hp h

theorem foldl_production_cell_nonneg (g : Game) (cells : List Location)
    (turn : List (Int × Int))
    (hp : ∀ pos ∈ cells, 0 ≤ (g.world.game_map.cells pos).production)
    (h : ∀ e ∈ turn, 0 ≤ e.2) :
    ∀ e ∈ cells.foldl (fun turn pos => production_cell g turn pos.1 pos.2) turn, 0 ≤ e.2 := by
  induction cells generalizing turn with
  | nil => exact h
  | cons pos cells ih =>
    rw [List.foldl_cons]
    apply ih
    · exact fun q hq => hp q (List.mem_cons_of_mem _ hq)
    · exact production_cell_nonneg g turn pos.1 pos.2 (hp pos (List.mem_cons_self _ _)) h

theorem credit_energy_nonneg (id amount : Int) (ps : List (Int × Player)) (ha : 0 ≤ amount)
    (h : ∀ kp ∈ ps, 0 ≤ kp.2.energy) : ∀ kp ∈ credit id amount ps, 0 ≤ kp.2.energy := by
  induction ps with
  | nil =>
    intro kp hkp
    simp only [credit, List.mem_singleton] at hkp
    subst hkp
    simpa [fresh_player] using ha
  | cons kq ps ih =>
    obtain ⟨k, p⟩ := kq
    intro kp hkp
    have hpe : 0 ≤ p.energy := h (k, p) (List.mem_cons_self _ _)
    by_cases hk : k = id
    · simp only [credit, hk, if_true] at hkp
      rcases List.mem_cons.mp hkp with rfl | hkp
      · exact Int.add_nonneg hpe ha
      · exact h kp (List.mem_cons_of_mem _ hkp)
    · simp only [credit, hk, if_false] at hkp
      rcases List.mem_cons.mp hkp with rfl | hkp
      · exact hpe
      · exact ih (fun kq hkq => h kq (List.mem_cons_of_mem _ hkq)) kp hkp

theorem foldl_credit_energy_nonneg (turn : List (Int × Int)) (ps : List (Int × Player))
    (ht : ∀ e ∈ turn, 0 ≤ e.2) (h : ∀ kp ∈ ps, 0 ≤ kp.2.energy) :
    ∀ kp ∈ turn.foldl (fun ps e => credit e.1 e.2 ps) ps, 0 ≤ kp.2.energy := by
  induction turn generalizing ps with
  | nil => exact h
  | cons e turn ih =>
    rw [List.foldl_cons]
    apply ih
    · exact fun e1 he1 => ht e1 (List.mem_cons_of_mem _ he1)
    · exact credit_energy_nonneg e.1 e.2 ps (ht e (List.mem_cons_self _ _)) h

/-- C10: when every player's balance is at least zero and every cell of the grid has a
production of at least zero, every player's balance is at least zero after `process_entities`
and after `process_production`. -/
theorem energy_nonneg (c : Constants) (g : Game) (h : ∀ kp ∈ g.players, 0 ≤ kp.2.energy)
    (hp : ∀ pos ∈ scan_order g.world.game_map, 0 ≤ (g.world.game_map.cells pos).production) :
    (∀ kp ∈ (process_entities c g).players, 0 ≤ kp.2.energy) ∧
    (∀ kp ∈ (process_production g).players, 0 ≤ kp.2.energy) := by
  constructor
  · rw [process_entities_players]
    apply decay_pass_energy_nonneg
    exact spawn_pass_energy_nonneg c g.world g.players h
  · apply foldl_credit_energy_nonneg _ _ _ h
    apply foldl_production_cell_nonneg g _ [] hp
    intro e he
    exact absurd he (List.not_mem_nil _)

/-! ## The concrete states -/

theorem find_nil_ne_some {κ ν : Type} [DecidableEq κ] (key : κ) (value : ν) :
    find key ([] : List (κ × ν)) ≠ some value := by
  simp [find]

theorem find_singleton {κ ν : Type} [DecidableEq κ] (k key : κ) (v value : ν)
    (h : find key [(k, v)] = some value) : k = key ∧ v = value := by
  by_cases hk : k = key
  · simp only [find, hk, if_true, Option.some.injEq] at h
    exact ⟨hk, h⟩
  · simp [find, hk] at h

/-- A single player holding one entity, registered in its cell of an otherwise bare map. -/
theorem consistent_single (k id : Int) (energy : Int) (factory location : Location)
    (r : Ref) :
    Consistent [(k, ⟨id, energy, factory, [(location, r)]⟩)] (bare_map.register location id r) := by
  constructor
  · intro kp hkp l r1 hfind
    rw [List.mem_singleton] at hkp
    subst hkp
    obtain ⟨hl, hr⟩ := find_singleton _ _ _ _ hfind
    rw [cells_register_find, if_pos ⟨hl.symm, rfl⟩, hr]
  · intro l id1 r1 hfind
    rw [cells_register_find] at hfind
    by_cases hc : l = location ∧ id1 = id
    · rw [if_pos hc, Option.some.injEq] at hfind
      refine ⟨_, List.mem_singleton.mpr rfl, hc.2.symm, ?_⟩
      rw [hc.1, ← hfind]
      simp [find]
    · rw [if_neg hc] at hfind
      exact absurd hfind (find_nil_ne_some _ _)

/-- C3 fails on the code: from a consistent state, `process_entities` erases the entity that
ran out of energy from the player's entity map only; the cell keeps its back-reference, so the
player-map/grid consistency is lost. -/
theorem process_entities_keeps_back_reference :
    Consistent second_turn_game.players second_turn_game.world.game_map ∧
    (process_entities sample_constants second_turn_game).players
      = [(1, ⟨1, 0, (0, 0), []⟩)] ∧
    find 1 ((process_entities sample_constants second_turn_game).world.game_map.cells
      (0, 0)).entities = some 0 ∧
    ((process_entities sample_constants second_turn_game).world.store 0).energy = 0 ∧
    ¬ Consistent (process_entities sample_constants second_turn_game).players
        (process_entities sample_constants second_turn_game).world.game_map := by
  refine ⟨consistent_single 1 1 0 (0, 0) (0, 0) 0, by decide, by decide, by decide, ?_⟩
  intro hc
  obtain ⟨kp, hkp, -, hfind⟩ := hc.2 (0, 0) 1 0 (by decide)
  have hpl : (process_entities sample_constants second_turn_game).players
      = [(1, ⟨1, 0, (0, 0), []⟩)] := by decide
  rw [hpl, List.mem_singleton] at hkp
  subst hkp
  exact find_nil_ne_some _ _ hfind

/-- C1 applies: the player of `second_turn_game` has its entity at `(0, 0)`, with energy 1. -/
theorem spawn_entity_merge_witness :
    find (0, 0) (⟨1, 0, (0, 0), [((0, 0), 0)]⟩ : Player).entities = some 0 ∧
    ((spawn_entity sample_constants second_turn_game.world ⟨1, 0, (0, 0), [((0, 0), 0)]⟩
      (0, 0)).1.store 0).energy = 1 + 2 :=
  ⟨by decide,
    (spawn_entity_merge sample_constants second_turn_game.world ⟨1, 0, (0, 0), [((0, 0), 0)]⟩
      (0, 0) 0 (by decide)).1⟩

/-- C2 applies: the player of `initial_game` has no entity at its factory. -/
theorem spawn_entity_fresh_witness :
    find (0, 0) first_player.entities = none ∧
    find (0, 0) (spawn_entity sample_constants bare_world first_player (0, 0)).2.entities
      = some 0 :=
  ⟨by decide, (spawn_entity_fresh sample_constants bare_world first_player (0, 0) (by decide)).1⟩

/-- C8 applies to the player of `initial_game`, whose balance is the cost of a spawn. -/
theorem process_entities_spawns_witness :
    initial_game.players = [] ++ (1, first_player) :: [] ∧
    sample_constants.NEW_ENTITY_ENERGY_COST ≤ first_player.energy ∧
    ∃ q : Player, (process_entities sample_constants initial_game).players[0]? = some (1, q) ∧
      q.energy = 10 - 10 :=
  ⟨rfl, by decide,
    (process_entities_spawns sample_constants initial_game [] [] 1 first_player rfl
      (by decide)).1⟩

/-- C9 applies to the player of `second_turn_game`, whose balance is zero. -/
theorem process_entities_skips_witness :
    second_turn_game.players = [] ++ (1, ⟨1, 0, (0, 0), [((0, 0), 0)]⟩) :: [] ∧
    (0 : Int) < sample_constants.NEW_ENTITY_ENERGY_COST ∧
    (after_spawn sample_constants second_turn_game).world
      = (spawn_pass sample_constants second_turn_game.world ([] ++ [])).1 :=
  ⟨by decide, by decide,
    (process_entities_skips sample_constants second_turn_game [] [] 1
      ⟨1, 0, (0, 0), [((0, 0), 0)]⟩ (by decide) (by decide)).2.2.1⟩

/-- C10 applies to `initial_game`. -/
theorem energy_nonneg_witness :
    (∀ kp ∈ initial_game.players, 0 ≤ kp.2.energy) ∧
    (∀ pos ∈ scan_order initial_game.world.game_map,
      0 ≤ (initial_game.world.game_map.cells pos).production) ∧
    (∀ kp ∈ (process_entities sample_constants initial_game).players, 0 ≤ kp.2.energy) ∧
    (∀ kp ∈ (process_production initial_game).players, 0 ≤ kp.2.energy) :=
  ⟨by decide, by decide, energy_nonneg sample_constants initial_game (by decide) (by decide)⟩

/-! ## The closest entities and the tie flag -/

theorem closest_step_sublist (m : GameMap) (pos : Location) (acc : Int × List Ref)
    (e : Location × Ref) (seen : List Ref) (h : acc.2.Sublist seen) :
    (closest_step m pos acc e).2.Sublist (seen ++ [e.2]) := by
  unfold closest_step
  simp only []
  split
  · exact (List.sublist_append_right seen [e.2])
  · split
    · exact List.Sublist.append h (List.Sublist.refl _)
    · exact h.trans (List.sublist_append_left seen [e.2])

theorem foldl_closest_step_sublist (m : GameMap) (pos : Location) (es : List (Location × Ref))
    (acc : Int × List Ref) (seen : List Ref) (h : acc.2.Sublist seen) :
    (es.foldl (closest_step m pos) acc).2.Sublist (seen ++ es.map Prod.snd) := by
  induction es generalizing acc seen with
  | nil => simpa using h
  | cons e es ih =>
    rw [List.foldl_cons, List.map_cons]
    have h1 := ih (closest_step m pos acc e) (seen ++ [e.2])
      (closest_step_sublist m pos acc e seen h)
    simpa using h1

theorem closest_scan_sublist (m : GameMap) (pos : Location) (ps : List (Int × Player))
    (acc : Int × List Ref) (seen : List Ref) (h : acc.2.Sublist seen) :
    (closest_scan m pos ps acc).2.Sublist (seen ++ entity_refs ps) := by
  induction ps generalizing acc seen with
  | nil => simpa [closest_scan, entity_refs] using h
  | cons kp ps ih =>
    obtain ⟨k, p⟩ := kp
    have h1 := ih (p.entities.foldl (closest_step m pos) acc) (seen ++ p.entities.map Prod.snd)
      (foldl_closest_step_sublist m pos p.entities acc seen h)
    rw [entity_refs_cons, ← List.append_assoc]
    exact h1

/-- The closest entities, in the order found, are picked from the entities the players hold, in
the order the players and their entity maps are run through. -/
theorem find_closest_entities_sublist (g : Game) (pos : Location) :
    (find_closest_entities g pos []).Sublist (entity_refs g.players) := by
  have h := closest_scan_sublist g.world.game_map pos g.players
    (g.world.game_map.height + g.world.game_map.width, []) [] (List.Sublist.refl _)
  simpa [find_closest_entities] using h

/-- The flag after the loop is the comparison made in the last round. -/
theorem multiple_close_players_last (store : Ref → Entity) (first : Int) (l : List Ref)
    (last : Ref) :
    multiple_close_players store first (l ++ [last])
      = decide ((store last).owner_id ≠ first) := by
  unfold multiple_close_players
  rw [List.foldl_append]
  rfl

theorem owner_of_mem_entity_refs (g : Game)
    (hown : ∀ kp ∈ g.players, ∀ e ∈ kp.2.entities, (g.world.store e.2).owner_id = kp.1)
    (ps : List (Int × Player)) (hps : ∀ kp ∈ ps, kp ∈ g.players) (r : Ref)
    (h : r ∈ entity_refs ps) : (g.world.store r).owner_id ∈ ps.map Prod.fst := by
  obtain ⟨kp, hkp, l, hl⟩ := (mem_entity_refs ps r).mp h
  rw [hown kp (hps kp hkp) (l, r) hl]
  exact List.mem_map_of_mem Prod.fst hkp

/-- Entities picked in order from the players' maps, when every entity is filed under its owner
and the registry keys are distinct: if the first and the last have the same owner, all have. -/
theorem owners_between (g : Game)
    (hown : ∀ kp ∈ g.players, ∀ e ∈ kp.2.entities, (g.world.store e.2).owner_id = kp.1)
    (ps : List (Int × Player)) (hps : ∀ kp ∈ ps, kp ∈ g.players)
    (hids : (ps.map Prod.fst).Nodup) (l : List Ref) (hl : l.Sublist (entity_refs ps))
    (first last : Ref) (hfirst : l.head? = some first) (hlast : l.getLast? = some last)
    (heq : (g.world.store last).owner_id = (g.world.store first).owner_id) :
    ∀ r ∈ l, (g.world.store r).owner_id = (g.world.store first).owner_id := by
  induction ps generalizing l with
  | nil =>
    rw [entity_refs, List.sublist_nil] at hl
    subst hl
    intro r hr
    exact absurd hr (List.not_mem_nil _)
  | cons kp ps ih =>
    obtain ⟨k, p⟩ := kp
    rw [entity_refs_cons] at hl
    obtain ⟨l1, l2, rfl, h1, h2⟩ := List.sublist_append_iff.mp hl
    rw [List.map_cons, List.nodup_cons] at hids
    have hps1 : ∀ kq ∈ ps, kq ∈ g.players := fun kq hkq => hps kq (List.mem_cons_of_mem _ hkq)
    have hown1 : ∀ r ∈ l1, (g.world.store r).owner_id = k := by
      intro r hr
      obtain ⟨e, he, rfl⟩ := List.mem_map.mp (h1.subset hr)
      exact hown (k, p) (hps (k, p) (List.mem_cons_self _ _)) e he
    have hown2 : ∀ r ∈ l2, (g.world.store r).owner_id ≠ k := by
      intro r hr hc
      apply hids.1
      rw [← hc]
      exact owner_of_mem_entity_refs g hown ps hps1 r (h2.subset hr)
    cases l1 with
    | nil =>
      rw [List.nil_append] at hfirst hlast ⊢
      exact ih hps1 hids.2 l2 h2 hfirst hlast
    | cons x l1 =>
      rw [List.cons_append, List.head?_cons, Option.some.injEq] at hfirst
      subst hfirst
      have hx : (g.world.store x).owner_id = k := hown1 x (List.mem_cons_self _ _)
      cases l2 with
      | nil =>
        intro r hr
        rw [List.append_nil] at hr
        rw [hown1 r hr, hx]
      | cons y l2 =>
        have hmem : last ∈ y :: l2 := by
          rw [List.getLast?_append] at hlast
          cases hy : (y :: l2).getLast? with
          | none => simp at hy
          | some z =>
            rw [hy, Option.or_some, Option.some.injEq] at hlast
            subst hlast
            exact List.mem_of_mem_getLast? hy
        exact absurd (heq.trans hx) (hown2 last hmem)

/-- Under the same conditions the flag of `process_production` is false exactly when all the
closest entities have the owner of the first one. -/
theorem multiple_close_players_false_iff (g : Game)
    (hown : ∀ kp ∈ g.players, ∀ e ∈ kp.2.entities, (g.world.store e.2).owner_id = kp.1)
    (hids : (g.players.map Prod.fst).Nodup) (pos : Location) (front : Ref) (tail : List Ref)
    (h : find_closest_entities g pos [] = front :: tail) :
    multiple_close_players g.world.store (g.world.store front).owner_id (front :: tail) = false
      ↔ ∀ r ∈ front :: tail, (g.world.store r).owner_id = (g.world.store front).owner_id := by
  have hne : front :: tail ≠ [] := List.cons_ne_nil _ _
  obtain ⟨ys, hys⟩ := List.getLast?_eq_some_iff.mp (List.getLast?_eq_getLast _ hne)
  have hflag := multiple_close_players_last g.world.store (g.world.store front).owner_id ys
    ((front :: tail).getLast hne)
  rw [← hys] at hflag
  rw [hflag, decide_eq_false_iff_not, not_not]
  constructor
  · intro heq
    have hsub := find_closest_entities_sublist g pos
    rw [h] at hsub
    exact owners_between g hown g.players (fun kp hkp => hkp) hids (front :: tail) hsub front
      ((front :: tail).getLast hne) rfl (List.getLast?_eq_getLast _ hne) heq
  · intro hall
    exact hall _ (List.getLast_mem hne)

/-! ## The turn production -/

theorem production_cell_beneficiary (g : Game) (turn : List (Int × Int)) (pos : Location) :
    production_cell g turn pos.1 pos.2
      = match beneficiary g pos with
        | none => turn
        | some id => add_production id (g.world.game_map.cells pos).production turn := by
  obtain ⟨x, y⟩ := pos
  cases hc : find_closest_entities g (x, y) [] with
  | nil =>
    rw [production_cell_of_nil g turn x y hc]
    simp only [beneficiary, hc]
  | cons front tail =>
    rw [production_cell_of_cons g turn x y front tail hc]
    simp only [beneficiary, hc]
    split <;> rfl

theorem beneficiary_mem_keys (g : Game)
    (hown : ∀ kp ∈ g.players, ∀ e ∈ kp.2.entities, (g.world.store e.2).owner_id = kp.1)
    (pos : Location) (id : Int) (h : beneficiary g pos = some id) :
    id ∈ g.players.map Prod.fst := by
  cases hc : find_closest_entities g pos [] with
  | nil => simp [beneficiary, hc] at h
  | cons front tail =>
    simp only [beneficiary, hc] at h
    split at h
    · exact absurd h (by simp)
    · rw [Option.some.injEq] at h
      rw [← h]
      apply owner_of_mem_entity_refs g hown g.players (fun kp hkp => hkp)
      apply (find_closest_entities_sublist g pos).subset
      rw [hc]
      exact List.mem_cons_self _ _

/-- When every entity is filed under its owner and the registry keys are distinct, the cell loop
credits a cell to a player exactly when the closest entities are all that player's. -/
theorem beneficiary_eq_some_iff (g : Game)
    (hown : ∀ kp ∈ g.players, ∀ e ∈ kp.2.entities, (g.world.store e.2).owner_id = kp.1)
    (hids : (g.players.map Prod.fst).Nodup) (pos : Location) (id : Int) :
    beneficiary g pos = some id ↔ solely_owned g id pos = true := by
  unfold solely_owned
  rw [decide_eq_true_iff]
  cases hc : find_closest_entities g pos [] with
  | nil => simp [beneficiary, hc]
  | cons front tail =>
    have hiff := multiple_close_players_false_iff g hown hids pos front tail hc
    simp only [beneficiary, hc]
    constructor
    · intro h
      split at h
      · exact absurd h (by simp)
      · rename_i hflag
        rw [Option.some.injEq] at h
        rw [Bool.not_eq_true] at hflag
        refine ⟨List.cons_ne_nil _ _, ?_⟩
        intro r hr
        rw [← h]
        exact hiff.mp hflag r hr
    · rintro ⟨-, hall⟩
      have hfront : (g.world.store front).owner_id = id := hall front (List.mem_cons_self _ _)
      have hflag : multiple_close_players g.world.store (g.world.store front).owner_id
          (front :: tail) = false := by
        apply hiff.mpr
        intro r hr
        rw [hall r hr, hfront]
      rw [hflag, hfront]
      rfl

theorem tally_cons (id k v : Int) (turn : List (Int × Int)) :
    tally id ((k, v) :: turn) = (if k = id then v else 0) + tally id turn := by
  unfold tally
  by_cases hk : k = id
  · simp [List.filter_cons, hk]
  · simp [List.filter_cons, hk]

theorem tally_add_production (id id1 amount : Int) (turn : List (Int × Int)) :
    tally id1 (add_production id amount turn)
      = tally id1 turn + (if id = id1 then amount else 0) := by
  induction turn with
  | nil =>
    simp only [add_production, tally_cons]
    simp [tally]
  | cons e turn ih =>
    obtain ⟨k, v⟩ := e
    by_cases hk : k = id
    · subst hk
      simp only [add_production, if_true, tally_cons]
      by_cases h1 : k = id1
      · simp only [h1, if_true]
        ring
      · simp only [h1, if_false]
        ring
    · simp only [add_production, hk, if_false, tally_cons, ih]
      ring

theorem add_production_keys (id amount : Int) (turn : List (Int × Int)) :
    ∀ e ∈ add_production id amount turn, e.1 = id ∨ e.1 ∈ turn.map Prod.fst := by
  induction turn with
  | nil =>
    intro e he
    simp only [add_production, List.mem_singleton] at he
    subst he
    exact Or.inl rfl
  | cons e0 turn ih =>
    obtain ⟨k, v⟩ := e0
    intro e he
    by_cases hk : k = id
    · simp only [add_production, hk, if_true] at he
      rcases List.mem_cons.mp he with rfl | he
      · exact Or.inl rfl
      · exact Or.inr (List.mem_cons_of_mem _ (List.mem_map_of_mem Prod.fst he))
    · simp only [add_production, hk, if_false] at he
      rcases List.mem_cons.mp he with rfl | he
      · exact Or.inr (List.mem_cons_self _ _)
      · rcases ih e he with h1 | h1
        · exact Or.inl h1
        · exact Or.inr (List.mem_cons_of_mem _ h1)

/-- What the cell loop has added up under `id` after the cells `cells`. -/
theorem tally_foldl_production_cell (g : Game) (id : Int) (cells : List Location)
    (turn : List (Int × Int)) :
    tally id (cells.foldl (fun turn pos => production_cell g turn pos.1 pos.2) turn)
      = tally id turn
        + (cells.map fun pos =>
            if beneficiary g pos = some id then (g.world.game_map.cells pos).production
            else 0).sum := by
  induction cells generalizing turn with
  | nil => simp
  | cons pos cells ih =>
    rw [List.foldl_cons, ih, production_cell_beneficiary, List.map_cons, List.sum_cons]
    cases hb : beneficiary g pos with
    | none => simp
    | some id1 =>
      simp only [tally_add_production, Option.some.injEq]
      ring

theorem keys_foldl_production_cell (g : Game) (cells : List Location)
    (turn : List (Int × Int)) :
    ∀ e ∈ cells.foldl (fun turn pos => production_cell g turn pos.1 pos.2) turn,
      e.1 ∈ turn.map Prod.fst ∨ ∃ pos ∈ cells, beneficiary g pos = some e.1 := by
  induction cells generalizing turn with
  | nil =>
    intro e he
    exact Or.inl (List.mem_map_of_mem Prod.fst he)
  | cons pos cells ih =>
    intro e he
    rw [List.foldl_cons] at he
    rcases ih _ e he with h1 | ⟨q, hq, hb⟩
    · rw [production_cell_beneficiary] at h1
      cases hb : beneficiary g pos with
      | none =>
        rw [hb] at h1
        exact Or.inl h1
      | some id1 =>
        rw [hb] at h1
        obtain ⟨e1, he1, heq⟩ := List.mem_map.mp h1
        rcases add_production_keys _ _ _ e1 he1 with h2 | h2
        · refine Or.inr ⟨pos, List.mem_cons_self _ _, ?_⟩
          rw [hb, ← heq, h2]
        · rw [heq] at h2
          exact Or.inl h2
    · exact Or.inr ⟨q, List.mem_cons_of_mem _ hq, hb⟩

/-! ## Crediting the players -/

theorem gain_zero (p : Player) : gain p 0 = p := by
  cases p
  simp [gain]

theorem gain_gain (p : Player) (a b : Int) : gain (gain p a) b = gain p (a + b) := by
  simp [gain, add_assoc]

/-- `game->players[id].energy += amount` for a registered id, the registry keys being distinct:
the one player under `id` gains `amount`. -/
theorem credit_of_mem (id amount : Int) (ps : List (Int × Player))
    (hmem : id ∈ ps.map Prod.fst) (hids : (ps.map Prod.fst).Nodup) :
    credit id amount ps
      = ps.map (fun kp => (kp.1, gain kp.2 (if kp.1 = id then amount else 0))) := by
  induction ps with
  | nil => exact absurd hmem (List.not_mem_nil _)
  | cons kq ps ih =>
    obtain ⟨k, p⟩ := kq
    rw [List.map_cons, List.nodup_cons] at hids
    by_cases hk : k = id
    · subst hk
      have hrest : ps.map (fun kp => (kp.1, gain kp.2 (if kp.1 = k then amount else 0))) = ps := by
        have hcongr : ∀ kp ∈ ps,
            (fun kp : Int × Player => (kp.1, gain kp.2 (if kp.1 = k then amount else 0))) kp
              = id kp := by
          intro kp hkp
          have hne : kp.1 ≠ k := fun hc => hids.1 (List.mem_map.mpr ⟨kp, hkp, hc⟩)
          simp [hne, gain_zero]
        rw [List.map_congr_left hcongr, List.map_id]
      rw [List.map_cons, hrest]
      simp [credit, gain]
    · have hmem1 : id ∈ ps.map Prod.fst := by
        rcases List.mem_cons.mp hmem with h1 | h1
        · exact absurd h1.symm hk
        · exact h1
      rw [List.map_cons, ← ih hmem1 hids.2]
      simp [credit, hk, gain_zero]

theorem tally_nil (id : Int) : tally id [] = 0 := rfl

/-- The last loop of `process_production`, the turn production naming registered ids only and
the registry keys being distinct: every player gains what is entered under its id. -/
theorem foldl_credit (turn : List (Int × Int)) (ps : List (Int × Player))
    (hids : (ps.map Prod.fst).Nodup) (hkeys : ∀ e ∈ turn, e.1 ∈ ps.map Prod.fst) :
    turn.foldl (fun ps e => credit e.1 e.2 ps) ps
      = ps.map (fun kp => (kp.1, gain kp.2 (tally kp.1 turn))) := by
  induction turn generalizing ps with
  | nil =>
    have hcongr : ∀ kp ∈ ps,
        (fun kp : Int × Player => (kp.1, gain kp.2 (tally kp.1 []))) kp = id kp := by
      intro kp _
      simp [tally_nil, gain_zero]
    rw [List.foldl_nil, List.map_congr_left hcongr, List.map_id]
  | cons e turn ih =>
    obtain ⟨k, v⟩ := e
    have hk : k ∈ ps.map Prod.fst := hkeys (k, v) (List.mem_cons_self _ _)
    have hfst : (ps.map (fun kp => (kp.1, gain kp.2 (if kp.1 = k then v else 0)))).map Prod.fst
        = ps.map Prod.fst := by
      rw [List.map_map]
      rfl
    rw [List.foldl_cons, credit_of_mem k v ps hk hids, ih _ (by rw [hfst]; exact hids)
      (by rw [hfst]; exact fun e he => hkeys e (List.mem_cons_of_mem _ he)), List.map_map]
    apply List.map_congr_left
    intro kp _
    simp only [Function.comp, gain_gain, tally_cons]
    by_cases h1 : k = kp.1
    · simp [h1]
    · have h2 : ¬ kp.1 = k := fun hc => h1 hc.symm
      simp [h1, h2]

theorem sum_map_filter (cs : List Location) (sel : Location → Bool) (f : Location → Int) :
    ((cs.filter sel).map f).sum = (cs.map fun pos => if sel pos = true then f pos else 0).sum := by
  induction cs with
  | nil => rfl
  | cons pos cs ih =>
    by_cases h : sel pos = true
    · simp [List.filter_cons, h, ih]
    · simp [List.filter_cons, h, ih]

theorem keys_turn_production (g : Game)
    (hown : ∀ kp ∈ g.players, ∀ e ∈ kp.2.entities, (g.world.store e.2).owner_id = kp.1) :
    ∀ e ∈ turn_production g, e.1 ∈ g.players.map Prod.fst := by
  intro e he
  rcases keys_foldl_production_cell g _ [] e he with h1 | ⟨pos, -, hb⟩
  · exact absurd h1 (List.not_mem_nil _)
  · exact beneficiary_mem_keys g hown pos e.1 hb

/-- When every entity is filed under its owner and the registry keys are distinct, what the
cell loop has entered under `id` is the production of the cells whose closest entities are all
that player's. -/
theorem tally_turn_production (g : Game)
    (hown : ∀ kp ∈ g.players, ∀ e ∈ kp.2.entities, (g.world.store e.2).owner_id = kp.1)
    (hids : (g.players.map Prod.fst).Nodup) (id : Int) :
    tally id (turn_production g) = production_of g (solely_owned g id) := by
  unfold turn_production production_of
  rw [tally_foldl_production_cell, tally_nil, zero_add, sum_map_filter]
  congr 1
  apply List.map_congr_left
  intro pos _
  exact if_congr (beneficiary_eq_some_iff g hown hids pos id) rfl rfl

theorem sum_ite_key (ps : List (Int × Player)) (hids : (ps.map Prod.fst).Nodup) (a : Int)
    (hmem : a ∈ ps.map Prod.fst) (v : Int) :
    (ps.map fun kp => if kp.1 = a then v else 0).sum = v := by
  induction ps with
  | nil => exact absurd hmem (List.not_mem_nil _)
  | cons kq ps ih =>
    obtain ⟨k, p⟩ := kq
    rw [List.map_cons, List.nodup_cons] at hids
    rw [List.map_cons, List.sum_cons]
    by_cases hk : k = a
    · subst hk
      have hzero : (ps.map fun kp => if kp.1 = k then v else 0) = ps.map fun _ => (0 : Int) := by
        apply List.map_congr_left
        intro kp hkp
        have hne : kp.1 ≠ k := fun hc => hids.1 (List.mem_map.mpr ⟨kp, hkp, hc⟩)
        simp [hne]
      simp [hzero]
    · have hmem1 : a ∈ ps.map Prod.fst := by
        rcases List.mem_cons.mp hmem with h1 | h1
        · exact absurd h1.symm hk
        · exact h1
      simp [hk, ih hids.2 hmem1]

theorem sum_map_sum_comm {α β : Type} (as : List α) (bs : List β) (f : α → β → Int) :
    (as.map fun a => (bs.map fun b => f a b).sum).sum
      = (bs.map fun b => (as.map fun a => f a b).sum).sum := by
  induction as with
  | nil => simp
  | cons a as ih =>
    simp only [List.map_cons, List.sum_cons, ih]
    rw [List.sum_map_add]

/-- Over the players, a cell counts once when its closest entities have a single owner and not
at all otherwise. -/
theorem sum_solely_owned (g : Game)
    (hown : ∀ kp ∈ g.players, ∀ e ∈ kp.2.entities, (g.world.store e.2).owner_id = kp.1)
    (hids : (g.players.map Prod.fst).Nodup) (pos : Location) (v : Int) :
    (g.players.map fun kp => if solely_owned g kp.1 pos = true then v else 0).sum
      = if single_owner g pos = true then v else 0 := by
  by_cases hs : single_owner g pos = true
  · rw [if_pos hs]
    unfold single_owner at hs
    rw [decide_eq_true_iff] at hs
    obtain ⟨hne, hall⟩ := hs
    cases hc : find_closest_entities g pos [] with
    | nil => exact absurd hc hne
    | cons front tail =>
      have hfront : front ∈ find_closest_entities g pos [] := by
        rw [hc]
        exact List.mem_cons_self _ _
      have hkey : (g.world.store front).owner_id ∈ g.players.map Prod.fst :=
        owner_of_mem_entity_refs g hown g.players (fun kp hkp => hkp) front
          ((find_closest_entities_sublist g pos).subset hfront)
      refine Eq.trans ?_ (sum_ite_key g.players hids (g.world.store front).owner_id hkey v)
      congr 1
      apply List.map_congr_left
      intro kp _
      apply if_congr _ rfl rfl
      unfold solely_owned
      rw [decide_eq_true_iff]
      constructor
      · rintro ⟨-, h1⟩
        exact (h1 front hfront).symm
      · intro h1
        refine ⟨hne, fun r hr => ?_⟩
        rw [hall r hr front hfront, h1]
  · rw [if_neg hs]
    have hzero : (g.players.map fun kp => if solely_owned g kp.1 pos = true then v else 0)
        = g.players.map fun _ => (0 : Int) := by
      apply List.map_congr_left
      intro kp _
      have hnot : ¬ solely_owned g kp.1 pos = true := by
        intro hso
        apply hs
        unfold solely_owned at hso
        rw [decide_eq_true_iff] at hso
        unfold single_owner
        rw [decide_eq_true_iff]
        exact ⟨hso.1, fun r hr r1 hr1 => (hso.2 r hr).trans (hso.2 r1 hr1).symm⟩
      rw [if_neg hnot]
    simp [hzero]

/-- C5: when every entity in a player's entity map is owned by that player and the players'
ids are distinct, `process_production` adds to each player's balance exactly the sum of the
productions of the cells whose closest entities are all that player's, computed on the state
before the call, and leaves the rest of the state alone; summed over the players this is the
production of the cells whose closest entities have a single owner. -/
theorem process_production_credits (g : Game)
    (hown : ∀ kp ∈ g.players, ∀ e ∈ kp.2.entities, (g.world.store e.2).owner_id = kp.1)
    (hids : (g.players.map Prod.fst).Nodup) :
    (process_production g).players
      = g.players.map (fun kp =>
          (kp.1, { kp.2 with energy := kp.2.energy + production_of g (solely_owned g kp.1) })) ∧
    (process_production g).world = g.world ∧
    (g.players.map fun kp => production_of g (solely_owned g kp.1)).sum
      = production_of g (single_owner g) := by
  refine ⟨?_, rfl, ?_⟩
  · have h := foldl_credit (turn_production g) g.players hids (keys_turn_production g hown)
    have hpl : (process_production g).players
        = (turn_production g).foldl (fun ps e => credit e.1 e.2 ps) g.players := rfl
    rw [hpl, h]
    apply List.map_congr_left
    intro kp _
    rw [tally_turn_production g hown hids kp.1]
    rfl
  · have hl : (g.players.map fun kp => production_of g (solely_owned g kp.1))
        = g.players.map fun kp => ((scan_order g.world.game_map).map fun pos =>
            if solely_owned g kp.1 pos = true then (g.world.game_map.cells pos).production
            else 0).sum := by
      apply List.map_congr_left
      intro kp _
      unfold production_of
      rw [sum_map_filter]
    rw [hl, sum_map_sum_comm]
    unfold production_of
    rw [sum_map_filter]
    congr 1
    apply List.map_congr_left
    intro pos _
    exact sum_solely_owned g hown hids pos _

/-- C5 applies to `duel_game`: each player is credited the production of its own cell, and the
two cells at the same distance from both are credited to nobody. -/
theorem process_production_credits_witness :
    (∀ kp ∈ duel_game.players, ∀ e ∈ kp.2.entities,
      (duel_game.world.store e.2).owner_id = kp.1) ∧
    (duel_game.players.map Prod.fst).Nodup ∧
    (process_production duel_game).players
      = duel_game.players.map (fun kp =>
          (kp.1, { kp.2 with
            energy := kp.2.energy + production_of duel_game (solely_owned duel_game kp.1) })) ∧
    production_of duel_game (solely_owned duel_game 1) = 5 ∧
    production_of duel_game (solely_owned duel_game 2) = 5 :=
  ⟨by decide, by decide,
    (process_production_credits duel_game (by decide) (by decide)).1, by decide, by decide⟩

/-! ## Production when nobody owns an entity, and what production leaves alone -/

theorem closest_scan_of_no_entities (m : GameMap) (pos : Location) (ps : List (Int × Player))
    (acc : Int × List Ref) (h : ∀ kp ∈ ps, kp.2.entities = []) :
    closest_scan m pos ps acc = acc := by
  induction ps generalizing acc with
  | nil => rfl
  | cons kp ps ih =>
    have hstep : closest_scan m pos (kp :: ps) acc
        = closest_scan m pos ps (kp.2.entities.foldl (closest_step m pos) acc) := rfl
    rw [hstep, h kp (List.mem_cons_self _ _), List.foldl_nil]
    exact ih acc (fun kq hkq => h kq (List.mem_cons_of_mem _ hkq))

theorem foldl_production_cell_of_no_entities (g : Game) (cells : List Location)
    (turn : List (Int × Int)) (h : ∀ pos, find_closest_entities g pos [] = []) :
    cells.foldl (fun turn pos => production_cell g turn pos.1 pos.2) turn = turn := by
  induction cells generalizing turn with
  | nil => rfl
  | cons pos cells ih =>
    rw [List.foldl_cons, production_cell_of_nil g turn pos.1 pos.2 (h (pos.1, pos.2))]
    exact ih turn

/-- C17: when no player owns any entity, `process_production` returns the state it was given,
whatever the cells produce; in particular every player's balance is what it was. -/
theorem process_production_no_entities (g : Game) (h : ∀ kp ∈ g.players, kp.2.entities = []) :
    process_production g = g ∧
    ∀ pos : Location, ∀ turn : List (Int × Int), production_cell g turn pos.1 pos.2 = turn := by
  have hc : ∀ pos, find_closest_entities g pos [] = [] := by
    intro pos
    unfold find_closest_entities
    rw [closest_scan_of_no_entities _ _ _ _ h]
  have ht : turn_production g = [] := foldl_production_cell_of_no_entities g _ [] hc
  constructor
  · unfold process_production
    rw [ht]
    rfl
  · intro pos turn
    exact production_cell_of_nil g turn pos.1 pos.2 (hc (pos.1, pos.2))

/-- C17 applies to `initial_game`, whose only player owns nothing. -/
theorem process_production_no_entities_witness :
    (∀ kp ∈ initial_game.players, kp.2.entities = []) ∧
    process_production initial_game = initial_game :=
  ⟨by decide, (process_production_no_entities initial_game (by decide)).1⟩

theorem beneficiary_owner (g : Game) (pos : Location) (id : Int)
    (h : beneficiary g pos = some id) :
    ∃ r ∈ entity_refs g.players, (g.world.store r).owner_id = id := by
  cases hc : find_closest_entities g pos [] with
  | nil => simp [beneficiary, hc] at h
  | cons front tail =>
    simp only [beneficiary, hc] at h
    split at h
    · exact absurd h (by simp)
    · rw [Option.some.injEq] at h
      refine ⟨front, ?_, h⟩
      apply (find_closest_entities_sublist g pos).subset
      rw [hc]
      exact List.mem_cons_self _ _

/-- `game->players[id].energy += amount` for a registered id changes a balance and nothing
else. -/
theorem credit_frame (id amount : Int) (ps : List (Int × Player))
    (hmem : id ∈ ps.map Prod.fst) :
    (credit id amount ps).map
        (fun kp => (kp.1, kp.2.player_id, kp.2.factory_location, kp.2.entities))
      = ps.map (fun kp => (kp.1, kp.2.player_id, kp.2.factory_location, kp.2.entities)) := by
  induction ps with
  | nil => exact absurd hmem (List.not_mem_nil _)
  | cons kq ps ih =>
    obtain ⟨k, p⟩ := kq
    by_cases hk : k = id
    · simp [credit, hk]
    · have hmem1 : id ∈ ps.map Prod.fst := by
        rcases List.mem_cons.mp hmem with h1 | h1
        · exact absurd h1.symm hk
        · exact h1
      simp only [credit, hk, if_false, List.map_cons, ih hmem1]

theorem credit_keys (id amount : Int) (ps : List (Int × Player))
    (hmem : id ∈ ps.map Prod.fst) : (credit id amount ps).map Prod.fst = ps.map Prod.fst := by
  have h := congrArg (List.map (fun t : Int × Int × Location × List (Location × Ref) => t.1))
    (credit_frame id amount ps hmem)
  simpa [List.map_map, Function.comp] using h

theorem foldl_credit_frame (turn : List (Int × Int)) (ps : List (Int × Player))
    (hkeys : ∀ e ∈ turn, e.1 ∈ ps.map Prod.fst) :
    (turn.foldl (fun ps e => credit e.1 e.2 ps) ps).map
        (fun kp => (kp.1, kp.2.player_id, kp.2.factory_location, kp.2.entities))
      = ps.map (fun kp => (kp.1, kp.2.player_id, kp.2.factory_location, kp.2.entities)) := by
  induction turn generalizing ps with
  | nil => rfl
  | cons e turn ih =>
    have he : e.1 ∈ ps.map Prod.fst := hkeys e (List.mem_cons_self _ _)
    rw [List.foldl_cons, ih, credit_frame e.1 e.2 ps he]
    intro e1 he1
    rw [credit_keys e.1 e.2 ps he]
    exact hkeys e1 (List.mem_cons_of_mem _ he1)

/-- C18: when every entity in a player's entity map has the id of a registered player as
owner, `process_production` changes balances only: the world (map dimensions, cell contents and
productions, entity objects) is the same, and the registry holds the same ids in the same
order, each with the same `player_id`, factory location and entity map. -/
theorem process_production_frame (g : Game)
    (hex : ∀ kp ∈ g.players, ∀ e ∈ kp.2.entities,
      (g.world.store e.2).owner_id ∈ g.players.map Prod.fst) :
    (process_production g).world = g.world ∧
    (process_production g).players.map
        (fun kp => (kp.1, kp.2.player_id, kp.2.factory_location, kp.2.entities))
      = g.players.map
        (fun kp => (kp.1, kp.2.player_id, kp.2.factory_location, kp.2.entities)) := by
  refine ⟨rfl, ?_⟩
  apply foldl_credit_frame
  intro e he
  rcases keys_foldl_production_cell g _ [] e he with h1 | ⟨pos, -, hb⟩
  · exact absurd h1 (List.not_mem_nil _)
  · obtain ⟨r, hr, hro⟩ := beneficiary_owner g pos e.1 hb
    obtain ⟨kp, hkp, l, hl⟩ := (mem_entity_refs g.players r).mp hr
    rw [← hro]
    exact hex kp hkp (l, r) hl

/-- C18 applies to `duel_game`. -/
theorem process_production_frame_witness :
    (∀ kp ∈ duel_game.players, ∀ e ∈ kp.2.entities,
      (duel_game.world.store e.2).owner_id ∈ duel_game.players.map Prod.fst) ∧
    (process_production duel_game).world = duel_game.world :=
  ⟨by decide, (process_production_frame duel_game (by decide)).1⟩

/-! ## The tie flag on the lists `find_closest_entities` builds -/

theorem getLast?_cons_append_singleton {α : Type} (x z : α) (l : List α) :
    (x :: (l ++ [z])).getLast? = some z := by
  have h : x :: (l ++ [z]) = (x :: l) ++ [z] := rfl
  rw [h, List.getLast?_concat]

/-- C16: when every entity in a player's entity map is owned by that player and the players'
ids are distinct, the list `find_closest_entities` builds keeps each player's entities
together (an entity standing between two entities of one owner has that owner), and the flag
`process_production` is left with after comparing every owner with the first one is true
exactly when the list holds entities of different owners. -/
theorem closest_entities_grouped (g : Game)
    (hown : ∀ kp ∈ g.players, ∀ e ∈ kp.2.entities, (g.world.store e.2).owner_id = kp.1)
    (hids : (g.players.map Prod.fst).Nodup) (pos : Location) :
    (∀ (l1 l2 l3 l4 : List Ref) (x y z : Ref),
      find_closest_entities g pos [] = l1 ++ (x :: (l2 ++ (y :: (l3 ++ (z :: l4))))) →
      (g.world.store x).owner_id = (g.world.store z).owner_id →
      (g.world.store y).owner_id = (g.world.store x).owner_id) ∧
    (∀ (front : Ref) (tail : List Ref), find_closest_entities g pos [] = front :: tail →
      (multiple_close_players g.world.store (g.world.store front).owner_id (front :: tail) = true
        ↔ ∃ r ∈ front :: tail, ∃ r1 ∈ front :: tail,
            (g.world.store r).owner_id ≠ (g.world.store r1).owner_id)) := by
  constructor
  · intro l1 l2 l3 l4 x y z hl hxz
    have hsub : (x :: (l2 ++ (y :: (l3 ++ [z])))).Sublist (entity_refs g.players) := by
      refine List.Sublist.trans ?_ (find_closest_entities_sublist g pos)
      rw [hl]
      refine List.Sublist.trans ?_ (List.sublist_append_right l1 _)
      refine List.Sublist.cons₂ x (List.Sublist.append (List.Sublist.refl l2) ?_)
      refine List.Sublist.cons₂ y (List.Sublist.append (List.Sublist.refl l3) ?_)
      exact List.Sublist.cons₂ z (List.nil_sublist l4)
    have hlast : (x :: (l2 ++ (y :: (l3 ++ [z])))).getLast? = some z := by
      have h : l2 ++ (y :: (l3 ++ [z])) = (l2 ++ (y :: l3)) ++ [z] := by simp
      rw [h]
      exact getLast?_cons_append_singleton x z _
    apply owners_between g hown g.players (fun kp hkp => hkp) hids _ hsub x z rfl hlast hxz.symm
    simp
  · intro front tail hl
    have hiff := multiple_close_players_false_iff g hown hids pos front tail hl
    constructor
    · intro htrue
      by_contra hno
      have hall : ∀ r ∈ front :: tail,
          (g.world.store r).owner_id = (g.world.store front).owner_id := by
        intro r hr
        by_contra hne
        exact hno ⟨r, hr, front, List.mem_cons_self _ _, hne⟩
      rw [hiff.mpr hall] at htrue
      exact Bool.noConfusion htrue
    · rintro ⟨r, hr, r1, hr1, hne⟩
      cases hflag : multiple_close_players g.world.store (g.world.store front).owner_id
          (front :: tail) with
      | true => rfl
      | false =>
        have hall := hiff.mp hflag
        exact absurd ((hall r hr).trans (hall r1 hr1).symm) hne

/-- C16 applies to `duel_game`: at the cell `(1, 0)` the two closest entities have different
owners and the flag is true. -/
theorem closest_entities_grouped_witness :
    (∀ kp ∈ duel_game.players, ∀ e ∈ kp.2.entities,
      (duel_game.world.store e.2).owner_id = kp.1) ∧
    (duel_game.players.map Prod.fst).Nodup ∧
    (multiple_close_players duel_game.world.store (duel_game.world.store 0).owner_id [0, 1] = true
      ↔ ∃ r ∈ [0, 1], ∃ r1 ∈ [0, 1],
          (duel_game.world.store r).owner_id ≠ (duel_game.world.store r1).owner_id) :=
  ⟨by decide, by decide,
    (closest_entities_grouped duel_game (by decide) (by decide) (1, 0)).2 0 [1] (by decide)⟩

/-- C13 fails on the code: the closest entities of the cell `(1, 0)` of `duel_game` belong to
two players; the cell body hands the cell to `process_tie`, which does nothing, and returns the
turn production as it was: of the 20 the grid produces, the 10 of the two tied cells are
credited to nobody, and nothing reports it. -/
theorem tie_production_dropped :
    find_closest_entities duel_game (1, 0) [] = [0, 1] ∧
    (duel_game.world.store 0).owner_id = 1 ∧ (duel_game.world.store 1).owner_id = 2 ∧
    (duel_game.world.game_map.cells (1, 0)).production = 5 ∧
    production_cell duel_game [] 1 0 = [] ∧
    production_cell duel_game [(1, 5)] 1 0 = [(1, 5)] ∧
    turn_production duel_game = [(1, 5), (2, 5)] ∧
    production_of duel_game (fun _ => true) = 20 ∧
    (process_production duel_game).players
      = [(1, ⟨1, 5, (0, 0), [((0, 0), 0)]⟩), (2, ⟨2, 5, (1, 1), [((1, 1), 1)]⟩)] := by
  decide

/-! ## What `find_closest_entities` returns -/

theorem closest_scan_eq_foldl (m : GameMap) (pos : Location) (ps : List (Int × Player))
    (acc : Int × List Ref) :
    closest_scan m pos ps acc = (all_entries ps).foldl (closest_step m pos) acc := by
  induction ps generalizing acc with
  | nil => rfl
  | cons kp ps ih =>
    have hstep : closest_scan m pos (kp :: ps) acc
        = closest_scan m pos ps (kp.2.entities.foldl (closest_step m pos) acc) := rfl
    rw [hstep, ih]
    unfold all_entries
    rw [List.flatMap_cons, List.foldl_append]

theorem nearest_cons (m : GameMap) (pos : Location) (start : Int) (e : Location × Ref)
    (es : List (Location × Ref)) :
    nearest m pos start (e :: es) = nearest m pos (min start (m.distance e.1 pos)) es := rfl

theorem nearest_le_start (m : GameMap) (pos : Location) (start : Int)
    (es : List (Location × Ref)) : nearest m pos start es ≤ start := by
  induction es generalizing start with
  | nil => exact le_refl _
  | cons e es ih =>
    rw [nearest_cons]
    exact le_trans (ih _) (min_le_left _ _)

theorem nearest_le_of_mem (m : GameMap) (pos : Location) (start : Int)
    (es : List (Location × Ref)) (e : Location × Ref) (he : e ∈ es) :
    nearest m pos start es ≤ m.distance e.1 pos := by
  induction es generalizing start with
  | nil => exact absurd he (List.not_mem_nil _)
  | cons e0 es ih =>
    rw [nearest_cons]
    rcases List.mem_cons.mp he with rfl | he
    · exact le_trans (nearest_le_start m pos _ es) (min_le_right _ _)
    · exact ih _ he

theorem nearest_eq_or (m : GameMap) (pos : Location) (start : Int)
    (es : List (Location × Ref)) :
    nearest m pos start es = start ∨ ∃ e ∈ es, m.distance e.1 pos = nearest m pos start es := by
  induction es generalizing start with
  | nil => exact Or.inl rfl
  | cons e0 es ih =>
    rw [nearest_cons]
    rcases ih (min start (m.distance e0.1 pos)) with h | ⟨e, he, heq⟩
    · by_cases hle : start ≤ m.distance e0.1 pos
      · rw [min_eq_left hle] at h ⊢
        exact Or.inl h
      · rw [min_eq_right (le_of_lt (not_le.mp hle))] at h ⊢
        exact Or.inr ⟨e0, List.mem_cons_self _ _, h.symm⟩
    · exact Or.inr ⟨e, List.mem_cons_of_mem _ he, heq⟩

/-- The smallest distance is the distance of some entry, when there is an entry and no entry is
farther than `start`. -/
theorem nearest_attained (m : GameMap) (pos : Location) (start : Int)
    (es : List (Location × Ref)) (hne : es ≠ [])
    (hd : ∀ e ∈ es, m.distance e.1 pos ≤ start) :
    ∃ e ∈ es, m.distance e.1 pos = nearest m pos start es := by
  rcases nearest_eq_or m pos start es with h | h
  · cases es with
    | nil => exact absurd rfl hne
    | cons e0 es =>
      refine ⟨e0, List.mem_cons_self _ _, ?_⟩
      apply le_antisymm
      · rw [h]
        exact hd e0 (List.mem_cons_self _ _)
      · exact nearest_le_of_mem m pos start _ e0 (List.mem_cons_self _ _)
  · exact h

/-- The two loops of `find_closest_entities` from a running distance `d` and a list `l`: the
distance ends as the smallest seen, and the list holds, after `l` if nothing closer than `d`
was seen, the entities at that distance in the order met. -/
theorem foldl_closest_step (m : GameMap) (pos : Location) (es : List (Location × Ref))
    (d : Int) (l : List Ref) :
    es.foldl (closest_step m pos) (d, l)
      = (nearest m pos d es,
         (if nearest m pos d es < d then [] else l)
           ++ (es.filter fun e => decide (m.distance e.1 pos = nearest m pos d es)).map
                Prod.snd) := by
  induction es generalizing d l with
  | nil => simp [nearest]
  | cons e es ih =>
    rw [List.foldl_cons, nearest_cons, List.filter_cons]
    have hN := nearest_le_start m pos (min d (m.distance e.1 pos)) es
    by_cases h1 : m.distance e.1 pos < d
    · have hstep : closest_step m pos (d, l) e = (m.distance e.1 pos, [e.2]) := by
        simp [closest_step, h1]
      have hmin : min d (m.distance e.1 pos) = m.distance e.1 pos := min_eq_right (le_of_lt h1)
      rw [hstep, ih, hmin]
      rw [hmin] at hN
      rw [if_pos (lt_of_le_of_lt hN h1)]
      by_cases h2 : nearest m pos (m.distance e.1 pos) es < m.distance e.1 pos
      · have hne : ¬ m.distance e.1 pos = nearest m pos (m.distance e.1 pos) es :=
          fun hc => absurd h2 (by rw [← hc]; exact lt_irrefl _)
        simp [h2, hne]
      · have heq : m.distance e.1 pos = nearest m pos (m.distance e.1 pos) es :=
          le_antisymm (not_lt.mp h2) hN
        rw [if_neg h2, ← heq]
        simp
    · by_cases h3 : m.distance e.1 pos = d
      · have hstep : closest_step m pos (d, l) e = (d, l ++ [e.2]) := by
          simp [closest_step, h3]
        have hmin : min d (m.distance e.1 pos) = d := min_eq_left (not_lt.mp h1)
        rw [hstep, ih, hmin]
        rw [hmin] at hN
        by_cases h2 : nearest m pos d es < d
        · have hne : ¬ m.distance e.1 pos = nearest m pos d es := by
            rw [h3]
            exact fun hc => absurd h2 (by rw [← hc]; exact lt_irrefl _)
          simp [h2, hne]
        · have heq : nearest m pos d es = d := le_antisymm hN (not_lt.mp h2)
          rw [if_neg h2, if_neg h2, heq, h3]
          simp
      · have hstep : closest_step m pos (d, l) e = (d, l) := by
          simp [closest_step, h1, h3]
        have hmin : min d (m.distance e.1 pos) = d := min_eq_left (not_lt.mp h1)
        rw [hstep, ih, hmin]
        rw [hmin] at hN
        have hlt : d < m.distance e.1 pos :=
          lt_of_le_of_ne (not_lt.mp h1) (fun hc => h3 hc.symm)
        have hne : ¬ m.distance e.1 pos = nearest m pos d es :=
          fun hc => absurd hlt (by rw [hc]; exact not_lt.mpr hN)
        simp [hne]

theorem all_entries_eq_nil_iff (ps : List (Int × Player)) :
    all_entries ps = [] ↔ ∀ kp ∈ ps, kp.2.entities = [] := by
  induction ps with
  | nil => simp [all_entries]
  | cons kp ps ih =>
    have h : all_entries (kp :: ps) = kp.2.entities ++ all_entries ps := by
      unfold all_entries
      rw [List.flatMap_cons]
    rw [h, List.append_eq_nil, ih]
    constructor
    · rintro ⟨h1, h2⟩ kq hkq
      rcases List.mem_cons.mp hkq with rfl | hkq
      · exact h1
      · exact h2 kq hkq
    · intro h1
      exact ⟨h1 kp (List.mem_cons_self _ _), fun kq hkq => h1 kq (List.mem_cons_of_mem _ hkq)⟩

theorem find_closest_entities_eq_filter (g : Game) (pos : Location) :
    find_closest_entities g pos []
      = ((all_entries g.players).filter fun e =>
          decide (g.world.game_map.distance e.1 pos
            = nearest g.world.game_map pos (g.world.game_map.height + g.world.game_map.width)
                (all_entries g.players))).map Prod.snd := by
  unfold find_closest_entities
  rw [closest_scan_eq_foldl, foldl_closest_step]
  simp

/-- C15: called with an empty list on a map whose distance never exceeds `width + height`,
`find_closest_entities` returns, in the order of the players and of their entity maps, exactly
the entities whose distance to the cell is not above any entity's distance to the cell, each
as often as it is held; the list is empty exactly when every player's entity map is empty. -/
theorem find_closest_entities_exact (g : Game) (pos : Location)
    (hd : ∀ a b : Location,
      g.world.game_map.distance a b ≤ g.world.game_map.width + g.world.game_map.height) :
    find_closest_entities g pos []
      = ((all_entries g.players).filter fun e =>
          decide (∀ e1 ∈ all_entries g.players,
            g.world.game_map.distance e.1 pos ≤ g.world.game_map.distance e1.1 pos)).map
          Prod.snd ∧
    (find_closest_entities g pos [] = [] ↔ ∀ kp ∈ g.players, kp.2.entities = []) := by
  have hbound : ∀ e ∈ all_entries g.players, g.world.game_map.distance e.1 pos
      ≤ g.world.game_map.height + g.world.game_map.width := by
    intro e _
    rw [add_comm]
    exact hd e.1 pos
  have hsame : ((all_entries g.players).filter fun e =>
        decide (g.world.game_map.distance e.1 pos
          = nearest g.world.game_map pos (g.world.game_map.height + g.world.game_map.width)
              (all_entries g.players)))
      = (all_entries g.players).filter fun e =>
        decide (∀ e1 ∈ all_entries g.players,
          g.world.game_map.distance e.1 pos ≤ g.world.game_map.distance e1.1 pos) := by
    apply List.filter_congr
    intro e he
    rw [decide_eq_decide]
    obtain ⟨e0, he0, heq0⟩ := nearest_attained g.world.game_map pos _ (all_entries g.players)
      (List.ne_nil_of_mem he) hbound
    constructor
    · intro heq e1 he1
      rw [heq]
      exact nearest_le_of_mem _ _ _ _ e1 he1
    · intro hmin
      apply le_antisymm
      · rw [← heq0]
        exact hmin e0 he0
      · exact nearest_le_of_mem _ _ _ _ e he
  constructor
  · rw [find_closest_entities_eq_filter, hsame]
  · rw [← all_entries_eq_nil_iff, find_closest_entities_eq_filter]
    constructor
    · intro hnil
      by_contra hne
      obtain ⟨e0, he0, heq0⟩ := nearest_attained g.world.game_map pos _ (all_entries g.players)
        hne hbound
      have hmem : e0.2 ∈ ((all_entries g.players).filter fun e =>
          decide (g.world.game_map.distance e.1 pos
            = nearest g.world.game_map pos (g.world.game_map.height + g.world.game_map.width)
                (all_entries g.players))).map Prod.snd :=
        List.mem_map.mpr ⟨e0, List.mem_filter.mpr ⟨he0, decide_eq_true heq0⟩, rfl⟩
      rw [hnil] at hmem
      exact absurd hmem (List.not_mem_nil _)
    · intro hnil
      rw [hnil]
      rfl

theorem torus_distance_le (a b : Location) : torus_distance 2 2 a b ≤ 2 + 2 := by
  unfold torus_distance
  have h1 : min ((a.1 - b.1).natAbs : Int) (2 - (a.1 - b.1).natAbs) ≤ 1 := by
    by_cases h : ((a.1 - b.1).natAbs : Int) ≤ 1
    · exact le_trans (min_le_left _ _) h
    · exact le_trans (min_le_right _ _) (by omega)
  have h2 : min ((a.2 - b.2).natAbs : Int) (2 - (a.2 - b.2).natAbs) ≤ 1 := by
    by_cases h : ((a.2 - b.2).natAbs : Int) ≤ 1
    · exact le_trans (min_le_left _ _) h
    · exact le_trans (min_le_right _ _) (by omega)
  omega

/-- C15 applies to `duel_game`: the cell `(0, 0)` has the entity of player 1 as its only
closest entity. -/
theorem find_closest_entities_exact_witness :
    (∀ a b : Location, duel_game.world.game_map.distance a b
      ≤ duel_game.world.game_map.width + duel_game.world.game_map.height) ∧
    (find_closest_entities duel_game (0, 0) [] = [] ↔
      ∀ kp ∈ duel_game.players, kp.2.entities = []) :=
  ⟨torus_distance_le, (find_closest_entities_exact duel_game (0, 0) torus_distance_le).2⟩

/-! ## A cell tied between two players -/

theorem flatMap_cast_eq_map (l : List Nat) :
    (l.flatMap fun a => [(a : Int)]) = l.map Nat.cast := by
  induction l with
  | nil => rfl
  | cons a l ih =>
    rw [List.flatMap_cons, ih]
    rfl

/-- The nested loops of `process_production` come to every cell once. -/
theorem scan_order_nodup (m : GameMap) : (scan_order m).Nodup := by
  unfold scan_order
  rw [List.nodup_flatMap]
  constructor
  · intro y _
    have hcast : (do let a ← List.range m.width.toNat; pure (a : Int))
        = (List.range m.width.toNat).map Nat.cast :=
      flatMap_cast_eq_map _
    rw [hcast, List.map_map]
    apply List.Nodup.map _ (List.nodup_range _)
    intro x1 x2 h
    exact Nat.cast_injective (Prod.mk.inj h).1
  · apply List.Pairwise.imp _ (List.nodup_range m.height.toNat)
    intro y1 y2 hne pos h1 h2
    obtain ⟨x1, -, hx1⟩ := List.mem_map.mp h1
    obtain ⟨x2, -, hx2⟩ := List.mem_map.mp h2
    apply hne
    have h := congrArg Prod.snd (hx1.trans hx2.symm)
    exact Nat.cast_injective h

theorem production_cell_eq_with (g : Game) (turn : List (Int × Int)) (pos_x pos_y : Int) :
    production_cell g turn pos_x pos_y = production_cell_with process_tie g turn pos_x pos_y :=
  rfl

/-- The cell body on a cell whose closest entities are exactly two entities with different
owners: it is one call of the tie function on the cell's location, the list of both entities
and the turn production; and with `process_tie` what the two owners are credited by it does not
exceed the cell's production when that is at least zero. -/
theorem tie_cell_handed_over_once (g : Game) (pos_x pos_y : Int) (r1 r2 : Ref)
    (hc : find_closest_entities g (pos_x, pos_y) [] = [r1, r2])
    (hne : (g.world.store r1).owner_id ≠ (g.world.store r2).owner_id)
    (hp : 0 ≤ (g.world.game_map.cells (pos_x, pos_y)).production) :
    (∀ (tie : Location → List Ref → List (Int × Int) → List (Int × Int))
        (turn : List (Int × Int)),
      production_cell_with tie g turn pos_x pos_y = tie (pos_x, pos_y) [r1, r2] turn) ∧
    (∀ turn : List (Int × Int),
      production_cell g turn pos_x pos_y
        = production_cell_with process_tie g turn pos_x pos_y) ∧
    (∀ turn : List (Int × Int),
      (tally (g.world.store r1).owner_id (production_cell g turn pos_x pos_y)
          - tally (g.world.store r1).owner_id turn)
        + (tally (g.world.store r2).owner_id (production_cell g turn pos_x pos_y)
          - tally (g.world.store r2).owner_id turn)
        ≤ (g.world.game_map.cells (pos_x, pos_y)).production) ∧
    (scan_order g.world.game_map).Nodup := by
  have hflag : multiple_close_players g.world.store (g.world.store r1).owner_id [r1, r2]
      = true := by
    have h := multiple_close_players_last g.world.store (g.world.store r1).owner_id [r1] r2
    rw [List.singleton_append] at h
    rw [h]
    exact decide_eq_true (fun hc1 => hne hc1.symm)
  have hwith : ∀ (tie : Location → List Ref → List (Int × Int) → List (Int × Int))
      (turn : List (Int × Int)),
      production_cell_with tie g turn pos_x pos_y = tie (pos_x, pos_y) [r1, r2] turn := by
    intro tie turn
    simp only [production_cell_with, hc, hflag, if_true]
  refine ⟨hwith, fun turn => rfl, ?_, scan_order_nodup _⟩
  intro turn
  rw [production_cell_eq_with, hwith process_tie turn]
  simp only [process_tie, sub_self, add_zero]
  exact hp

/-! ## One entity on a 2 x 2 grid -/

theorem scan_order_two_by_two (m : GameMap) (hw : m.width = 2) (hh : m.height = 2) :
    scan_order m = [(0, 0), (1, 0), (0, 1), (1, 1)] := by
  unfold scan_order
  rw [hw, hh]
  rfl

theorem all_entries_append (a b : List (Int × Player)) :
    all_entries (a ++ b) = all_entries a ++ all_entries b := by
  unfold all_entries
  rw [List.flatMap_append]

theorem all_entries_single (pre post : List (Int × Player)) (k : Int) (p : Player)
    (hnone : ∀ kp, kp ∈ pre ∨ kp ∈ post → kp.2.entities = []) :
    all_entries (pre ++ (k, p) :: post) = p.entities := by
  have hpre : all_entries pre = [] :=
    (all_entries_eq_nil_iff pre).mpr (fun kp hkp => hnone kp (Or.inl hkp))
  have hpost : all_entries post = [] :=
    (all_entries_eq_nil_iff post).mpr (fun kp hkp => hnone kp (Or.inr hkp))
  have hcons : all_entries ((k, p) :: post) = p.entities ++ all_entries post := by
    unfold all_entries
    rw [List.flatMap_cons]
  rw [all_entries_append, hcons, hpre, hpost, List.nil_append, List.append_nil]

/-- The production credited to `id` when the only entity of the game stands on `(0, 0)` of a
2 x 2 grid whose other cells produce nothing: the production of `(0, 0)` for the entity's
owner, nothing for anybody else. -/
theorem production_of_lone_entity (g : Game) (pre post : List (Int × Player)) (A : Int)
    (p : Player) (r : Ref) (id : Int)
    (hw : g.world.game_map.width = 2) (hh : g.world.game_map.height = 2)
    (hg : g.players = pre ++ (A, p) :: post)
    (hnone : ∀ kp, kp ∈ pre ∨ kp ∈ post → kp.2.entities = [])
    (he : p.entities = [((0, 0), r)]) (ho : (g.world.store r).owner_id = A)
    (hd : g.world.game_map.distance (0, 0) (0, 0) = 0)
    (h10 : (g.world.game_map.cells (1, 0)).production = 0)
    (h01 : (g.world.game_map.cells (0, 1)).production = 0)
    (h11 : (g.world.game_map.cells (1, 1)).production = 0) :
    production_of g (solely_owned g id)
      = if A = id then (g.world.game_map.cells (0, 0)).production else 0 := by
  have hclosest : find_closest_entities g (0, 0) [] = [r] := by
    have hn : nearest g.world.game_map (0, 0)
        (g.world.game_map.height + g.world.game_map.width) [((0, 0), r)] = 0 := by
      show min (g.world.game_map.height + g.world.game_map.width)
        (g.world.game_map.distance (0, 0) (0, 0)) = 0
      rw [hd, hw, hh]
      rfl
    rw [find_closest_entities_eq_filter, hg, all_entries_single pre post A p hnone, he, hn]
    simp only [List.filter_cons, List.filter_nil, hd, decide_True, if_true, List.map_cons,
      List.map_nil]
  have hsol : solely_owned g id (0, 0) = decide (A = id) := by
    unfold solely_owned
    rw [hclosest, decide_eq_decide]
    constructor
    · intro h
      rw [← ho]
      exact h.2 r (List.mem_singleton.mpr rfl)
    · intro h
      refine ⟨List.cons_ne_nil _ _, fun r1 hr1 => ?_⟩
      rw [List.mem_singleton.mp hr1, ho, h]
  unfold production_of
  rw [sum_map_filter, scan_order_two_by_two _ hw hh]
  simp only [List.map_cons, List.map_nil, List.sum_cons, List.sum_nil, h10, h01, h11, ite_self,
    add_zero, hsol, decide_eq_true_eq]

/-- C12 (amended): on a 2 x 2 grid whose cell `(0, 0)` produces 5 and whose other cells produce
nothing, with one entity in the game, owned by player `A` and standing on `(0, 0)`,
`process_production` adds exactly 5 to the balance of player `A` and leaves the other players
as they are. The registry ids are distinct, and the map's distance from `(0, 0)` to itself is
zero. -/
theorem lone_entity_production (g : Game) (pre post : List (Int × Player)) (A : Int)
    (p : Player) (r : Ref)
    (hw : g.world.game_map.width = 2) (hh : g.world.game_map.height = 2)
    (hg : g.players = pre ++ (A, p) :: post)
    (hids : (g.players.map Prod.fst).Nodup)
    (hnone : ∀ kp, kp ∈ pre ∨ kp ∈ post → kp.2.entities = [])
    (he : p.entities = [((0, 0), r)]) (ho : (g.world.store r).owner_id = A)
    (hd : g.world.game_map.distance (0, 0) (0, 0) = 0)
    (h00 : (g.world.game_map.cells (0, 0)).production = 5)
    (h10 : (g.world.game_map.cells (1, 0)).production = 0)
    (h01 : (g.world.game_map.cells (0, 1)).production = 0)
    (h11 : (g.world.game_map.cells (1, 1)).production = 0) :
    (process_production g).players
      = pre ++ (A, { p with energy := p.energy + 5 }) :: post := by
  have hown : ∀ kp ∈ g.players, ∀ e ∈ kp.2.entities, (g.world.store e.2).owner_id = kp.1 := by
    intro kp hkp e hemem
    rw [hg, List.mem_append, List.mem_cons] at hkp
    rcases hkp with hkp | hkp | hkp
    · rw [hnone kp (Or.inl hkp)] at hemem
      exact absurd hemem (List.not_mem_nil _)
    · subst hkp
      rw [he, List.mem_singleton] at hemem
      subst hemem
      exact ho
    · rw [hnone kp (Or.inr hkp)] at hemem
      exact absurd hemem (List.not_mem_nil _)
  have hpl : (process_production g).players
      = (turn_production g).foldl (fun ps e => credit e.1 e.2 ps) g.players := rfl
  have hcredit : ∀ id : Int, tally id (turn_production g) = if A = id then 5 else 0 := by
    intro id
    rw [tally_turn_production g hown hids id,
      production_of_lone_entity g pre post A p r id hw hh hg hnone he ho hd h10 h01 h11, h00]
  rw [hpl, foldl_credit (turn_production g) g.players hids (keys_turn_production g hown)]
  have hne := hids
  rw [hg, List.map_append, List.map_cons, List.nodup_middle, List.nodup_cons] at hne
  have hother : ∀ kp, kp ∈ pre ∨ kp ∈ post →
      (kp.1, gain kp.2 (tally kp.1 (turn_production g))) = kp := by
    intro kp hkp
    have hk : ¬ A = kp.1 := by
      intro hc
      apply hne.1
      rw [hc, List.mem_append]
      rcases hkp with hkp | hkp
      · exact Or.inl (List.mem_map.mpr ⟨kp, hkp, rfl⟩)
      · exact Or.inr (List.mem_map.mpr ⟨kp, hkp, rfl⟩)
    rw [hcredit kp.1, if_neg hk, gain_zero]
  have hmap : ∀ l : List (Int × Player), (∀ kp ∈ l, kp ∈ pre ∨ kp ∈ post) →
      l.map (fun kp => (kp.1, gain kp.2 (tally kp.1 (turn_production g)))) = l := by
    intro l hl
    have hcongr : ∀ kp ∈ l,
        (fun kp : Int × Player => (kp.1, gain kp.2 (tally kp.1 (turn_production g)))) kp
          = id kp := fun kp hkp => hother kp (hl kp hkp)
    rw [List.map_congr_left hcongr, List.map_id]
  rw [hg, List.map_append, List.map_cons, hmap pre (fun kp hkp => Or.inl hkp),
    hmap post (fun kp hkp => Or.inr hkp), hcredit A, if_pos rfl]
  rfl

/-- The amended C12 applies to the game of one player whose entity stands on the only
producing cell. -/
theorem lone_entity_production_witness :
    (process_production
      { players := [] ++ (1, ⟨1, 0, (0, 0), [((0, 0), 0)]⟩) :: []
        world :=
          { game_map :=
              { width := 2, height := 2, distance := torus_distance 2 2
                cells := fun l => if l = (0, 0) then ⟨5, [(1, 0)]⟩ else ⟨0, []⟩ }
            store := fun _ => ⟨1, 10⟩
            next := 1 } }).players
      = [] ++ (1, ⟨1, 0 + 5, (0, 0), [((0, 0), 0)]⟩) :: [] :=
  lone_entity_production _ [] [] 1 ⟨1, 0, (0, 0), [((0, 0), 0)]⟩ 0 rfl rfl rfl (by decide)
    (by simp) rfl rfl (by decide) rfl rfl rfl rfl

/-- C12 as stated fails: in `lone_game` the cell `(0, 0)` produces 5 and the only entity of the
game, of energy 10, stands on it; the entity is the closest one for every cell, so the player
is credited the production of all four cells, 20. -/
theorem lone_entity_credited_all_cells :
    lone_game.world.game_map.width = 2 ∧ lone_game.world.game_map.height = 2 ∧
    (lone_game.world.game_map.cells (0, 0)).production = 5 ∧
    lone_game.players = [(1, ⟨1, 0, (0, 0), [((0, 0), 0)]⟩)] ∧
    lone_game.world.store 0 = ⟨1, 10⟩ ∧
    (process_production lone_game).players = [(1, ⟨1, 0 + 20, (0, 0), [((0, 0), 0)]⟩)] := by
  decide

/-! ## A spawn paid with the whole balance -/

theorem assign_of_find_none {κ ν : Type} [DecidableEq κ] (key : κ) (value : ν)
    (m : List (κ × ν)) (h : find key m = none) : assign key value m = m ++ [(key, value)] := by
  induction m with
  | nil => rfl
  | cons e m ih =>
    obtain ⟨k, v⟩ := e
    by_cases hk : k = key
    · simp [find, hk] at h
    · simp only [find, hk, if_false] at h
      simp only [assign, hk, if_false, List.cons_append, ih h]

theorem find_append_of_none {κ ν : Type} [DecidableEq κ] (key : κ) (a b : List (κ × ν))
    (h : find key a = none) : find key (a ++ b) = find key b := by
  induction a with
  | nil => rfl
  | cons e a ih =>
    obtain ⟨k, v⟩ := e
    by_cases hk : k = key
    · simp [find, hk] at h
    · simp only [find, hk, if_false] at h
      have hstep : find key ((k, v) :: (a ++ b)) = find key (a ++ b) := by
        simp only [find, hk, if_false]
      rw [List.cons_append, hstep]
      exact ih h

theorem mem_assign {κ ν : Type} [DecidableEq κ] (key : κ) (value : ν) (m : List (κ × ν))
    (e : κ × ν) (h : e ∈ assign key value m) : e = (key, value) ∨ e ∈ m := by
  induction m with
  | nil =>
    simp only [assign, List.mem_singleton] at h
    exact Or.inl h
  | cons e0 m ih =>
    obtain ⟨k, v⟩ := e0
    by_cases hk : k = key
    · simp only [assign, hk, if_true] at h
      rcases List.mem_cons.mp h with h1 | h1
      · exact Or.inl h1
      · exact Or.inr (List.mem_cons_of_mem _ h1)
    · simp only [assign, hk, if_false] at h
      rcases List.mem_cons.mp h with h1 | h1
      · exact Or.inr (h1 ▸ List.mem_cons_self _ _)
      · rcases ih h1 with h2 | h2
        · exact Or.inl h2
        · exact Or.inr (List.mem_cons_of_mem _ h2)

theorem decay_entities_cons (c : Constants) (st : Ref → Entity) (l : Location) (r : Ref)
    (es : List (Location × Ref)) :
    decay_entities c st ((l, r) :: es)
      = if (add_energy st r (-c.BASE_TURN_ENERGY_LOSS) r).energy ≤ 0 then
          decay_entities c (add_energy st r (-c.BASE_TURN_ENERGY_LOSS)) es
        else
          ((decay_entities c (add_energy st r (-c.BASE_TURN_ENERGY_LOSS)) es).1,
           (l, r) :: (decay_entities c (add_energy st r (-c.BASE_TURN_ENERGY_LOSS)) es).2) :=
  rfl

theorem decay_entities_append (c : Constants) (st : Ref → Entity)
    (a b : List (Location × Ref)) :
    decay_entities c st (a ++ b)
      = ((decay_entities c (decay_entities c st a).1 b).1,
         (decay_entities c st a).2 ++ (decay_entities c (decay_entities c st a).1 b).2) := by
  induction a generalizing st with
  | nil => rfl
  | cons e a ih =>
    obtain ⟨l, r⟩ := e
    rw [List.cons_append, decay_entities_cons, decay_entities_cons, ih]
    by_cases h : (add_energy st r (-c.BASE_TURN_ENERGY_LOSS) r).energy ≤ 0
    · rw [if_pos h, if_pos h]
    · rw [if_neg h, if_neg h]
      rfl

/-- The inner decay loop leaves alone an entity object none of the entries holds. -/
theorem decay_entities_store_of_ne (c : Constants) (st : Ref → Entity)
    (es : List (Location × Ref)) (n : Ref) (h : ∀ e ∈ es, e.2 ≠ n) :
    (decay_entities c st es).1 n = st n := by
  induction es generalizing st with
  | nil => rfl
  | cons e es ih =>
    obtain ⟨l, r⟩ := e
    rw [decay_entities_store_eq, ih _ (fun e he => h e (List.mem_cons_of_mem _ he))]
    exact add_energy_of_ne st r n _ (fun hc => h (l, r) (List.mem_cons_self _ _) hc.symm)

/-- The outer decay loop leaves alone an entity object no player holds. -/
theorem decay_pass_store_of_ne (c : Constants) (st : Ref → Entity) (ps : List (Int × Player))
    (n : Ref) (h : ∀ kp ∈ ps, ∀ e ∈ kp.2.entities, e.2 ≠ n) :
    (decay_pass c st ps).1 n = st n := by
  induction ps generalizing st with
  | nil => rfl
  | cons kp ps ih =>
    obtain ⟨k, p⟩ := kp
    rw [decay_pass_cons]
    show (decay_pass c (decay_entities c st p.entities).1 ps).1 n = st n
    rw [ih _ (fun kq hkq => h kq (List.mem_cons_of_mem _ hkq))]
    exact decay_entities_store_of_ne c st p.entities n (h (k, p) (List.mem_cons_self _ _))

/-- A round of the spawn loop hands out references from `next` upwards: the entities the player
holds afterwards are below the new `next` when they were below the old one. -/
theorem spawn_step_refs_lt (c : Constants) (w : World) (p : Player)
    (h : ∀ e ∈ p.entities, e.2 < w.next) :
    w.next ≤ (spawn_step c w p).1.next ∧
    ∀ e ∈ (spawn_step c w p).2.entities, e.2 < (spawn_step c w p).1.next := by
  by_cases hc : c.NEW_ENTITY_ENERGY_COST ≤ p.energy
  · rw [spawn_step_of_ge c w p hc]
    cases hf : find p.factory_location p.entities with
    | some r =>
      rw [spawn_entity_of_some c w
        { p with energy := p.energy - c.NEW_ENTITY_ENERGY_COST } p.factory_location r hf]
      exact ⟨le_refl _, h⟩
    | none =>
      rw [spawn_entity_of_none c w
        { p with energy := p.energy - c.NEW_ENTITY_ENERGY_COST } p.factory_location hf]
      refine ⟨Nat.le_succ _, ?_⟩
      intro e he
      rcases mem_assign _ _ _ e he with h1 | h1
      · rw [h1]
        exact Nat.lt_succ_self _
      · exact Nat.lt_succ_of_lt (h e h1)
  · rw [spawn_step_of_lt c w p (not_le.mp hc)]
    exact ⟨le_refl _, h⟩

theorem spawn_pass_refs_lt (c : Constants) (w : World) (ps : List (Int × Player))
    (h : ∀ kp ∈ ps, ∀ e ∈ kp.2.entities, e.2 < w.next) :
    w.next ≤ (spawn_pass c w ps).1.next ∧
    ∀ kp ∈ (spawn_pass c w ps).2, ∀ e ∈ kp.2.entities, e.2 < (spawn_pass c w ps).1.next := by
  induction ps generalizing w with
  | nil =>
    exact ⟨le_refl _, fun kp hkp => absurd hkp (List.not_mem_nil _)⟩
  | cons kq ps ih =>
    obtain ⟨k, p⟩ := kq
    obtain ⟨h1, h2⟩ := spawn_step_refs_lt c w p (h (k, p) (List.mem_cons_self _ _))
    obtain ⟨h3, h4⟩ := ih (spawn_step c w p).1
      (fun kq hkq e he => lt_of_lt_of_le (h kq (List.mem_cons_of_mem _ hkq) e he) h1)
    rw [spawn_pass_cons]
    refine ⟨le_trans h1 h3, ?_⟩
    intro kp hkp e he
    rcases List.mem_cons.mp hkp with rfl | hkp
    · exact lt_of_lt_of_le (h2 e he) h3
    · exact h4 kp hkp e he

/-- A round of the spawn loop leaves alone an entity object that exists already and that the
player does not hold, and the player does not hold it afterwards either. -/
theorem spawn_step_store_of_ne (c : Constants) (w : World) (p : Player) (n : Ref)
    (h : ∀ e ∈ p.entities, e.2 ≠ n) (hn : n < w.next) :
    (spawn_step c w p).1.store n = w.store n ∧ n < (spawn_step c w p).1.next ∧
    ∀ e ∈ (spawn_step c w p).2.entities, e.2 ≠ n := by
  by_cases hc : c.NEW_ENTITY_ENERGY_COST ≤ p.energy
  · rw [spawn_step_of_ge c w p hc]
    cases hf : find p.factory_location p.entities with
    | some r =>
      rw [spawn_entity_of_some c w
        { p with energy := p.energy - c.NEW_ENTITY_ENERGY_COST } p.factory_location r hf]
      refine ⟨?_, hn, h⟩
      have hr : r ≠ n := h (p.factory_location, r) (mem_of_find _ _ _ hf)
      exact add_energy_of_ne w.store r n _ (fun hc1 => hr hc1.symm)
    | none =>
      rw [spawn_entity_of_none c w
        { p with energy := p.energy - c.NEW_ENTITY_ENERGY_COST } p.factory_location hf]
      refine ⟨?_, Nat.lt_succ_of_lt hn, ?_⟩
      · show set_entity w.store w.next _ n = w.store n
        simp [set_entity, Nat.ne_of_lt hn]
      · intro e he
        rcases mem_assign _ _ _ e he with h1 | h1
        · rw [h1]
          exact fun hc1 => absurd hn (by rw [← hc1]; exact lt_irrefl _)
        · exact h e h1
  · rw [spawn_step_of_lt c w p (not_le.mp hc)]
    exact ⟨rfl, hn, h⟩

theorem spawn_pass_store_of_ne (c : Constants) (w : World) (ps : List (Int × Player))
    (n : Ref) (h : ∀ kp ∈ ps, ∀ e ∈ kp.2.entities, e.2 ≠ n) (hn : n < w.next) :
    (spawn_pass c w ps).1.store n = w.store n ∧
    ∀ kp ∈ (spawn_pass c w ps).2, ∀ e ∈ kp.2.entities, e.2 ≠ n := by
  induction ps generalizing w with
  | nil =>
    exact ⟨rfl, fun kp hkp => absurd hkp (List.not_mem_nil _)⟩
  | cons kq ps ih =>
    obtain ⟨k, p⟩ := kq
    obtain ⟨h1, h2, h3⟩ := spawn_step_store_of_ne c w p n (h (k, p) (List.mem_cons_self _ _)) hn
    obtain ⟨h4, h5⟩ := ih (spawn_step c w p).1
      (fun kq hkq => h kq (List.mem_cons_of_mem _ hkq)) h2
    rw [spawn_pass_cons]
    refine ⟨h4.trans h1, ?_⟩
    intro kp hkp e he
    rcases List.mem_cons.mp hkp with rfl | hkp
    · exact h3 e he
    · exact h5 kp hkp e he

/-- C11 (amended): when `NEW_ENTITY_ENERGY` is above `BASE_TURN_ENERGY_LOSS`, a player whose
balance is exactly `NEW_ENTITY_ENERGY_COST` and who has no entity at its factory location has,
after `process_entities`, balance 0 and an entity at the factory location, owned by it, with
energy `NEW_ENTITY_ENERGY - BASE_TURN_ENERGY_LOSS`. The entities held before the call are
objects made before the call (references below `next`). -/
theorem process_entities_exact_cost (c : Constants) (g : Game)
    (pre post : List (Int × Player)) (k : Int) (p : Player)
    (hg : g.players = pre ++ (k, p) :: post)
    (he : p.energy = c.NEW_ENTITY_ENERGY_COST)
    (hf : find p.factory_location p.entities = none)
    (hnew : ∀ kp ∈ g.players, ∀ e ∈ kp.2.entities, e.2 < g.world.next)
    (hpos : c.BASE_TURN_ENERGY_LOSS < c.NEW_ENTITY_ENERGY) :
    ∃ (q : Player) (r : Ref),
      (process_entities c g).players[pre.length]? = some (k, q) ∧ q.energy = 0 ∧
      find p.factory_location q.entities = some r ∧
      ((process_entities c g).world.store r).energy
        = c.NEW_ENTITY_ENERGY - c.BASE_TURN_ENERGY_LOSS ∧
      ((process_entities c g).world.store r).owner_id = p.player_id := by
  -- the spawn loop up to the player
  obtain ⟨w1, pre1, hsp1⟩ : ∃ w1 pre1, spawn_pass c g.world pre = (w1, pre1) := ⟨_, _, rfl⟩
  have hmem : ∀ kp, kp ∈ pre ∨ kp = (k, p) ∨ kp ∈ post → kp ∈ g.players := by
    intro kp hkp
    rw [hg, List.mem_append, List.mem_cons]
    exact hkp
  have hpre := spawn_pass_refs_lt c g.world pre (fun kp hkp => hnew kp (hmem kp (Or.inl hkp)))
  rw [hsp1] at hpre
  obtain ⟨hnext, hpre1⟩ := hpre
  have hlen : pre1.length = pre.length := by
    have h := spawn_pass_length c g.world pre
    rw [hsp1] at h
    exact h
  -- the player's own round
  have hstep : spawn_step c w1 p
      = ((World.mk (w1.game_map.register p.factory_location p.player_id w1.next)
      (set_entity w1.store w1.next ⟨p.player_id, c.NEW_ENTITY_ENERGY⟩) (w1.next + 1)),
         (Player.mk p.player_id (p.energy - c.NEW_ENTITY_ENERGY_COST) p.factory_location
      (p.entities ++ [(p.factory_location, w1.next)]))) := by
    rw [spawn_step_of_ge c w1 p (le_of_eq he.symm),
      spawn_entity_of_none c w1 { p with energy := p.energy - c.NEW_ENTITY_ENERGY_COST }
        p.factory_location hf]
    simp only [assign_of_find_none p.factory_location w1.next p.entities hf]
  -- the rest of the spawn loop
  obtain ⟨w3, post1, hsp3⟩ : ∃ w3 post1,
      spawn_pass c
        (World.mk (w1.game_map.register p.factory_location p.player_id w1.next)
      (set_entity w1.store w1.next ⟨p.player_id, c.NEW_ENTITY_ENERGY⟩) (w1.next + 1)) post = (w3, post1) := ⟨_, _, rfl⟩
  have hpost := spawn_pass_store_of_ne c
    (World.mk (w1.game_map.register p.factory_location p.player_id w1.next)
      (set_entity w1.store w1.next ⟨p.player_id, c.NEW_ENTITY_ENERGY⟩) (w1.next + 1)) post w1.next
    (fun kp hkp e hemem =>
      Nat.ne_of_lt (lt_of_lt_of_le (hnew kp (hmem kp (Or.inr (Or.inr hkp))) e hemem) hnext))
    (Nat.lt_succ_self _)
  rw [hsp3] at hpost
  obtain ⟨hstore3, hpost1⟩ := hpost
  have hstore3a : w3.store w1.next = ⟨p.player_id, c.NEW_ENTITY_ENERGY⟩ := by
    rw [hstore3]
    simp [set_entity]
  have hs : spawn_pass c g.world g.players
      = (w3, pre1 ++ (k, (Player.mk p.player_id (p.energy - c.NEW_ENTITY_ENERGY_COST) p.factory_location
      (p.entities ++ [(p.factory_location, w1.next)]))) :: post1) := by
    rw [hg, spawn_pass_append, hsp1, spawn_pass_cons, hstep, hsp3]
  have hap : (after_spawn c g).players = (spawn_pass c g.world g.players).2 := rfl
  have haw : (after_spawn c g).world = (spawn_pass c g.world g.players).1 := rfl
  rw [hs] at hap haw
  -- the decay loop
  have hp_ne : ∀ e ∈ p.entities, e.2 ≠ w1.next := fun e hemem =>
    Nat.ne_of_lt (lt_of_lt_of_le (hnew (k, p) (hmem (k, p) (Or.inr (Or.inl rfl))) e hemem) hnext)
  have hA : (decay_pass c w3.store pre1).1 w1.next = w3.store w1.next :=
    decay_pass_store_of_ne c w3.store pre1 w1.next
      (fun kp hkp e hemem => Nat.ne_of_lt (hpre1 kp hkp e hemem))
  have hB : (decay_entities c (decay_pass c w3.store pre1).1 p.entities).1 w1.next
      = ⟨p.player_id, c.NEW_ENTITY_ENERGY⟩ := by
    rw [decay_entities_store_of_ne c _ p.entities w1.next hp_ne, hA, hstore3a]
  have hlast : decay_entities c (decay_entities c (decay_pass c w3.store pre1).1 p.entities).1
        [(p.factory_location, w1.next)]
      = (add_energy (decay_entities c (decay_pass c w3.store pre1).1 p.entities).1 w1.next
          (-c.BASE_TURN_ENERGY_LOSS), [(p.factory_location, w1.next)]) := by
    rw [decay_entities_cons, add_energy_loss_self, hB]
    have hgt : ¬ (decayed c ⟨p.player_id, c.NEW_ENTITY_ENERGY⟩).energy ≤ 0 := by
      show ¬ c.NEW_ENTITY_ENERGY - c.BASE_TURN_ENERGY_LOSS ≤ 0
      omega
    rw [if_neg hgt]
    rfl
  have hown : decay_entities c (decay_pass c w3.store pre1).1
        (p.entities ++ [(p.factory_location, w1.next)])
      = (add_energy (decay_entities c (decay_pass c w3.store pre1).1 p.entities).1 w1.next
          (-c.BASE_TURN_ENERGY_LOSS),
         (decay_entities c (decay_pass c w3.store pre1).1 p.entities).2
          ++ [(p.factory_location, w1.next)]) := by
    rw [decay_entities_append, hlast]
  have hq := decay_pass_middle c w3.store pre1 post1 k
    (Player.mk p.player_id (p.energy - c.NEW_ENTITY_ENERGY_COST) p.factory_location
      (p.entities ++ [(p.factory_location, w1.next)]))
  have hpl : (process_entities c g).players
      = (decay_pass c w3.store (pre1 ++ (k, (Player.mk p.player_id (p.energy - c.NEW_ENTITY_ENERGY_COST) p.factory_location
      (p.entities ++ [(p.factory_location, w1.next)]))) :: post1)).2 := by
    rw [process_entities_players, hap, haw]
  have hst : (process_entities c g).world.store
      = (decay_pass c w3.store (pre1 ++ (k, (Player.mk p.player_id (p.energy - c.NEW_ENTITY_ENERGY_COST) p.factory_location
      (p.entities ++ [(p.factory_location, w1.next)]))) :: post1)).1 := by
    rw [process_entities_store, hap, haw]
  rw [← hpl, hlen] at hq
  have hfinal : (process_entities c g).world.store w1.next
      = decayed c ⟨p.player_id, c.NEW_ENTITY_ENERGY⟩ := by
    rw [hst, decay_pass_append, decay_pass_cons]
    show (decay_pass c (decay_entities c (decay_pass c w3.store pre1).1
      (p.entities ++ [(p.factory_location, w1.next)])).1 post1).1 w1.next = _
    rw [decay_pass_store_of_ne c _ post1 w1.next hpost1, hown]
    show add_energy _ w1.next (-c.BASE_TURN_ENERGY_LOSS) w1.next = _
    rw [add_energy_loss_self, hB]
  refine ⟨_, w1.next, hq, ?_, ?_, ?_, ?_⟩
  · show p.energy - c.NEW_ENTITY_ENERGY_COST = 0
    rw [he, sub_self]
  · show find p.factory_location (decay_entities c (decay_pass c w3.store pre1).1
      (p.entities ++ [(p.factory_location, w1.next)])).2 = some w1.next
    rw [hown]
    show find p.factory_location ((decay_entities c (decay_pass c w3.store pre1).1 p.entities).2
      ++ [(p.factory_location, w1.next)]) = some w1.next
    rw [find_append_of_none _ _ _ (decay_entities_find_none c _ p.entities _ hf)]
    simp [find]
  · rw [hfinal]
    rfl
  · rw [hfinal]
    rfl

/-- The amended C11 applies to `initial_game`, whose player has exactly the cost of a spawn. -/
theorem process_entities_exact_cost_witness :
    ∃ (q : Player) (r : Ref),
      (process_entities sample_constants initial_game).players[0]? = some (1, q) ∧
      q.energy = 0 ∧ find (0, 0) q.entities = some r ∧
      ((process_entities sample_constants initial_game).world.store r).energy = 2 - 1 ∧
      ((process_entities sample_constants initial_game).world.store r).owner_id = 1 :=
  process_entities_exact_cost sample_constants initial_game [] [] 1 first_player rfl rfl
    (by decide) (by decide) (by decide)

/-- C11 as stated fails: with `NEW_ENTITY_ENERGY` 1 and `BASE_TURN_ENERGY_LOSS` 1 the player of
`initial_game`, whose balance is the cost of a spawn and who has no entity at its factory, has
balance 0 after `process_entities` and no entity at its factory: the entity spawned is erased by
the decay loop of the same call. -/
theorem spawned_entity_erased_at_once :
    first_player.energy = brief_constants.NEW_ENTITY_ENERGY_COST ∧
    find first_player.factory_location first_player.entities = none ∧
    initial_game.players = [(1, first_player)] ∧
    (process_entities brief_constants initial_game).players = [(1, ⟨1, 0, (0, 0), []⟩)] ∧
    find first_player.factory_location
      (⟨1, 0, (0, 0), []⟩ : Player).entities = none := by
  decide

/-! ## Consistency and decay on the states the game can be in -/

/-- C4: in a registry that holds every player under its own id, no id twice, `spawn_entity` for
a player of the game at any location keeps the player-map/grid consistency: if every entry of
every player's entity map is registered in the cell at its location under the player's id and
every cell entry is an entry of that player's map, the same holds after the call; and the
players are still registered under their own ids. -/
theorem spawn_entity_keeps_consistency (c : Constants) (w : World)
    (pre post : List (Int × Player)) (k : Int) (p : Player) (location : Location)
    (hkeys : ((pre ++ (k, p) :: post).map Prod.fst).Nodup)
    (hown : ∀ kp ∈ pre ++ (k, p) :: post, kp.2.player_id = kp.1)
    (h : Consistent (pre ++ (k, p) :: post) w.game_map) :
    Consistent (pre ++ (k, (spawn_entity c w p location).2) :: post)
      (spawn_entity c w p location).1.game_map ∧
    ((pre ++ (k, (spawn_entity c w p location).2) :: post).map Prod.fst).Nodup ∧
    ∀ kp ∈ pre ++ (k, (spawn_entity c w p location).2) :: post, kp.2.player_id = kp.1 := by
  have hid : ((pre ++ (k, p) :: post).map (fun kp => kp.2.player_id)).Nodup := by
    have hsame : (pre ++ (k, p) :: post).map (fun kp => kp.2.player_id)
        = (pre ++ (k, p) :: post).map Prod.fst := List.map_congr_left hown
    rw [hsame]
    exact hkeys
  refine ⟨spawn_entity_consistent c w pre post k p location hid h, ?_, ?_⟩
  · rw [List.map_append, List.map_cons] at hkeys ⊢
    exact hkeys
  · intro kp hkp
    rw [List.mem_append, List.mem_cons] at hkp
    rcases hkp with hkp | hkp | hkp
    · exact hown kp (List.mem_append_left _ hkp)
    · subst hkp
      rw [spawn_entity_player_id]
      exact hown (k, p) (List.mem_append_right _ (List.mem_cons_self _ _))
    · exact hown kp (List.mem_append_right _ (List.mem_cons_of_mem _ hkp))

/-- C4 applies to the first spawn of `initial_game`. -/
theorem spawn_entity_keeps_consistency_witness :
    (List.map Prod.fst ([] ++ (1, first_player) :: [])).Nodup ∧
    Consistent ([] ++ (1, first_player) :: []) bare_world.game_map ∧
    Consistent ([] ++ (1, (spawn_entity sample_constants bare_world first_player (0, 0)).2) :: [])
      (spawn_entity sample_constants bare_world first_player (0, 0)).1.game_map := by
  have hc : Consistent ([] ++ (1, first_player) :: []) bare_world.game_map := by
    constructor
    · intro kp hkp l r hfind
      rw [List.nil_append, List.mem_singleton] at hkp
      subst hkp
      exact absurd hfind (find_nil_ne_some _ _)
    · intro l id r hfind
      exact absurd hfind (find_nil_ne_some _ _)
  exact ⟨by decide, hc,
    (spawn_entity_keeps_consistency sample_constants bare_world [] [] 1 first_player (0, 0)
      (by decide) (by decide) hc).1⟩

/-- A round of the spawn loop keeps the entities a player holds pairwise different: it adds at
most the object just made. -/
theorem spawn_step_entity_refs (c : Constants) (w : World) (p : Player)
    (h : ∀ e ∈ p.entities, e.2 < w.next) (hn : (p.entities.map Prod.snd).Nodup) :
    ((spawn_step c w p).2.entities.map Prod.snd).Nodup ∧
    ∀ r ∈ (spawn_step c w p).2.entities.map Prod.snd,
      r ∈ p.entities.map Prod.snd ∨ (r = w.next ∧ (spawn_step c w p).1.next = w.next + 1) := by
  by_cases hc : c.NEW_ENTITY_ENERGY_COST ≤ p.energy
  · rw [spawn_step_of_ge c w p hc]
    cases hf : find p.factory_location p.entities with
    | some r =>
      rw [spawn_entity_of_some c w
        { p with energy := p.energy - c.NEW_ENTITY_ENERGY_COST } p.factory_location r hf]
      exact ⟨hn, fun r hr => Or.inl hr⟩
    | none =>
      rw [spawn_entity_of_none c w
        { p with energy := p.energy - c.NEW_ENTITY_ENERGY_COST } p.factory_location hf]
      have hent : (assign p.factory_location w.next p.entities).map Prod.snd
          = p.entities.map Prod.snd ++ [w.next] := by
        rw [assign_of_find_none _ _ _ hf, List.map_append]
        rfl
      constructor
      · show ((assign p.factory_location w.next p.entities).map Prod.snd).Nodup
        rw [hent, List.nodup_append]
        refine ⟨hn, List.nodup_singleton _, ?_⟩
        intro r hr hr1
        rw [List.mem_singleton] at hr1
        obtain ⟨e, he, rfl⟩ := List.mem_map.mp hr
        exact absurd (h e he) (by rw [hr1]; exact lt_irrefl _)
      · intro r hr
        have hr1 : r ∈ (assign p.factory_location w.next p.entities).map Prod.snd := hr
        rw [hent, List.mem_append, List.mem_singleton] at hr1
        rcases hr1 with hr1 | hr1
        · exact Or.inl hr1
        · exact Or.inr ⟨hr1, rfl⟩
  · rw [spawn_step_of_lt c w p (not_le.mp hc)]
    exact ⟨hn, fun r hr => Or.inl hr⟩

/-- The spawn loop keeps the entities the players hold pairwise different, when they are so
before and are objects made before the loop: what it adds are objects it makes. -/
theorem spawn_pass_entity_refs (c : Constants) (w : World) (ps : List (Int × Player))
    (h : ∀ kp ∈ ps, ∀ e ∈ kp.2.entities, e.2 < w.next) (hn : (entity_refs ps).Nodup) :
    (entity_refs (spawn_pass c w ps).2).Nodup ∧
    ∀ r ∈ entity_refs (spawn_pass c w ps).2, r ∈ entity_refs ps ∨ w.next ≤ r := by
  induction ps generalizing w with
  | nil =>
    exact ⟨List.nodup_nil, fun r hr => Or.inl hr⟩
  | cons kq ps ih =>
    obtain ⟨k, p⟩ := kq
    rw [entity_refs_cons, List.nodup_append] at hn
    obtain ⟨hnp, hnps, hdis⟩ := hn
    have hp : ∀ e ∈ p.entities, e.2 < w.next := h (k, p) (List.mem_cons_self _ _)
    obtain ⟨hnext, -⟩ := spawn_step_refs_lt c w p hp
    obtain ⟨hs1, hs2⟩ := spawn_step_entity_refs c w p hp hnp
    have hps : ∀ kq ∈ ps, ∀ e ∈ kq.2.entities, e.2 < w.next :=
      fun kq hkq => h kq (List.mem_cons_of_mem _ hkq)
    have hps_refs : ∀ r ∈ entity_refs ps, r < w.next := by
      intro r hr
      obtain ⟨kq, hkq, l, hl⟩ := (mem_entity_refs ps r).mp hr
      exact hps kq hkq (l, r) hl
    obtain ⟨hi1, hi2⟩ := ih (spawn_step c w p).1
      (fun kq hkq e he => lt_of_lt_of_le (hps kq hkq e he) hnext) hnps
    rw [spawn_pass_cons, entity_refs_cons]
    constructor
    · rw [List.nodup_append]
      refine ⟨hs1, hi1, ?_⟩
      intro r hr hr1
      rcases hs2 r hr with ha | ⟨ha, hb⟩
      · rcases hi2 r hr1 with hc | hc
        · exact hdis ha hc
        · obtain ⟨e, he, rfl⟩ := List.mem_map.mp ha
          exact absurd (lt_of_lt_of_le (hp e he) (le_trans hnext hc)) (lt_irrefl _)
      · rcases hi2 r hr1 with hc | hc
        · exact absurd (hps_refs r hc) (by rw [ha]; exact lt_irrefl _)
        · rw [hb, ha] at hc
          exact absurd hc (Nat.not_succ_le_self _)
    · intro r hr
      rcases List.mem_append.mp hr with hr | hr
      · rcases hs2 r hr with ha | ⟨ha, -⟩
        · exact Or.inl (List.mem_append_left _ ha)
        · exact Or.inr (le_of_eq ha.symm)
      · rcases hi2 r hr with hc | hc
        · exact Or.inl (List.mem_append_right _ hc)
        · exact Or.inr (le_trans hnext hc)

/-- C7: in a state whose players hold pairwise different entity objects, all made before the
call, `process_entities` takes `BASE_TURN_ENERGY_LOSS` exactly once from every entity that is
in a player's entity map once the spawn loop has finished: with energy `e` then, it has energy
`e - BASE_TURN_ENERGY_LOSS` afterwards and its owner is unchanged, its entry is still in that
player's map at the same location when that value is above zero and the entity is in no entry
of that map otherwise; and every entity left in a player's map has energy above zero. -/
theorem process_entities_decay_exact (c : Constants) (g : Game)
    (hshare : (entity_refs g.players).Nodup)
    (hnew : ∀ kp ∈ g.players, ∀ e ∈ kp.2.entities, e.2 < g.world.next) : DecaysOnce c g :=
  process_entities_decays_once c g (spawn_pass_entity_refs c g.world g.players hnew hshare).1

/-- C7 applies to `duel_game`, where each of the two players holds an entity of energy 3. -/
theorem process_entities_decay_exact_witness :
    (entity_refs duel_game.players).Nodup ∧
    (∀ kp ∈ duel_game.players, ∀ e ∈ kp.2.entities, e.2 < duel_game.world.next) ∧
    DecaysOnce sample_constants duel_game :=
  ⟨by decide, by decide,
    process_entities_decay_exact sample_constants duel_game (by decide) (by decide)⟩

/-! ## The decision between one owner and a tie -/

theorem production_cell_traced_eq (g : Game)
    (acc : List (Int × Int) × List (Location × List Ref)) (pos : Location) :
    production_cell_traced g acc pos.1 pos.2
      = (production_cell g acc.1 pos.1 pos.2, acc.2 ++ tie_call g pos) := by
  obtain ⟨x, y⟩ := pos
  cases hc : find_closest_entities g (x, y) [] with
  | nil =>
    rw [production_cell_of_nil g acc.1 x y hc]
    simp only [production_cell_traced, tie_call, hc, List.append_nil]
  | cons front tail =>
    rw [production_cell_of_cons g acc.1 x y front tail hc]
    simp only [production_cell_traced, tie_call, hc, process_tie]
    split
    · rfl
    · simp only [List.append_nil]

theorem foldl_production_cell_traced (g : Game) (cells : List Location)
    (acc : List (Int × Int) × List (Location × List Ref)) :
    cells.foldl (fun acc pos => production_cell_traced g acc pos.1 pos.2) acc
      = (cells.foldl (fun turn pos => production_cell g turn pos.1 pos.2) acc.1,
         acc.2 ++ cells.flatMap (tie_call g)) := by
  induction cells generalizing acc with
  | nil => simp
  | cons pos cells ih =>
    rw [List.foldl_cons, production_cell_traced_eq, ih, List.foldl_cons, List.flatMap_cons,
      List.append_assoc]

/-- The traced run is `process_production` together with the calls of `process_tie` the cell
bodies make, cell by cell in the order of the loops. -/
theorem process_production_traced_eq (g : Game) :
    process_production_traced g
      = (process_production g, (scan_order g.world.game_map).flatMap (tie_call g)) := by
  unfold process_production_traced
  simp only [foldl_production_cell_traced, List.nil_append]
  rfl

theorem mem_tie_call (g : Game) (pos : Location) (call : Location × List Ref)
    (h : call ∈ tie_call g pos) : call.1 = pos := by
  unfold tie_call at h
  split at h
  · exact absurd h (List.not_mem_nil _)
  · split at h
    · rw [List.mem_singleton] at h
      rw [h]
    · exact absurd h (List.not_mem_nil _)

/-- Among the calls made for a list of different cells, those for one of the cells are the calls
its cell body makes. -/
theorem filter_flatMap_tie_call (g : Game) (cells : List Location) (pos : Location)
    (hn : cells.Nodup) (hin : pos ∈ cells) :
    (cells.flatMap (tie_call g)).filter (fun call => decide (call.1 = pos)) = tie_call g pos := by
  have hnone : ∀ l : List Location, pos ∉ l →
      (l.flatMap (tie_call g)).filter (fun call => decide (call.1 = pos)) = [] := by
    intro l hl
    rw [List.filter_eq_nil_iff]
    intro call hcall hdec
    obtain ⟨q, hq, hmem⟩ := List.mem_flatMap.mp hcall
    have h1 := mem_tie_call g q call hmem
    have h2 : call.1 = pos := of_decide_eq_true hdec
    exact hl (h2 ▸ h1 ▸ hq)
  induction cells with
  | nil => exact absurd hin (List.not_mem_nil _)
  | cons q cells ih =>
    rw [List.nodup_cons] at hn
    rw [List.flatMap_cons, List.filter_append]
    by_cases hq : q = pos
    · subst hq
      have hself : (tie_call g q).filter (fun call => decide (call.1 = q)) = tie_call g q := by
        rw [List.filter_eq_self]
        intro call hcall
        exact decide_eq_true (mem_tie_call g q call hcall)
      rw [hself, hnone cells hn.1, List.append_nil]
    · have hin1 : pos ∈ cells := by
        rcases List.mem_cons.mp hin with h1 | h1
        · exact absurd h1.symm hq
        · exact h1
      have hother : (tie_call g q).filter (fun call => decide (call.1 = pos)) = [] := by
        rw [List.filter_eq_nil_iff]
        intro call hcall hdec
        have h1 := mem_tie_call g q call hcall
        have h2 : call.1 = pos := of_decide_eq_true hdec
        exact hq (h1.symm.trans h2)
      rw [hother, ih hn.2 hin1, List.nil_append]

/-- C14: for a cell of the grid with a production of at least zero whose closest entities are
exactly two entities with different owners, `process_production` calls `process_tie` for that
cell exactly once, with the list of both entities; and when the loops reach the cell, what the
cell body adds to the turn production of the two owners together does not exceed the cell's
production. -/
theorem tie_cell_in_process_production (g : Game) (pos_x pos_y : Int) (r1 r2 : Ref)
    (hin : (pos_x, pos_y) ∈ scan_order g.world.game_map)
    (hc : find_closest_entities g (pos_x, pos_y) [] = [r1, r2])
    (hne : (g.world.store r1).owner_id ≠ (g.world.store r2).owner_id)
    (hp : 0 ≤ (g.world.game_map.cells (pos_x, pos_y)).production) :
    (process_production_traced g).1 = process_production g ∧
    (process_production_traced g).2.filter (fun call => decide (call.1 = (pos_x, pos_y)))
      = [((pos_x, pos_y), [r1, r2])] ∧
    ∃ before after : List Location,
      scan_order g.world.game_map = before ++ (pos_x, pos_y) :: after ∧
      turn_production g
        = after.foldl (fun turn pos => production_cell g turn pos.1 pos.2)
            (production_cell g
              (before.foldl (fun turn pos => production_cell g turn pos.1 pos.2) [])
              pos_x pos_y) ∧
      (tally (g.world.store r1).owner_id
            (production_cell g
              (before.foldl (fun turn pos => production_cell g turn pos.1 pos.2) [])
              pos_x pos_y)
          - tally (g.world.store r1).owner_id
              (before.foldl (fun turn pos => production_cell g turn pos.1 pos.2) []))
        + (tally (g.world.store r2).owner_id
            (production_cell g
              (before.foldl (fun turn pos => production_cell g turn pos.1 pos.2) [])
              pos_x pos_y)
          - tally (g.world.store r2).owner_id
              (before.foldl (fun turn pos => production_cell g turn pos.1 pos.2) []))
        ≤ (g.world.game_map.cells (pos_x, pos_y)).production := by
  have hflag : multiple_close_players g.world.store (g.world.store r1).owner_id [r1, r2]
      = true := by
    have h := multiple_close_players_last g.world.store (g.world.store r1).owner_id [r1] r2
    rw [List.singleton_append] at h
    rw [h]
    exact decide_eq_true (fun hc1 => hne hc1.symm)
  have hcall : tie_call g (pos_x, pos_y) = [((pos_x, pos_y), [r1, r2])] := by
    simp only [tie_call, hc, hflag, if_true]
  refine ⟨by rw [process_production_traced_eq], ?_, ?_⟩
  · rw [process_production_traced_eq]
    show ((scan_order g.world.game_map).flatMap (tie_call g)).filter
      (fun call => decide (call.1 = (pos_x, pos_y))) = _
    rw [filter_flatMap_tie_call g _ (pos_x, pos_y) (scan_order_nodup _) hin, hcall]
  · obtain ⟨before, after, hsplit⟩ := List.append_of_mem hin
    refine ⟨before, after, hsplit, ?_, ?_⟩
    · unfold turn_production
      rw [hsplit, List.foldl_append, List.foldl_cons]
    · exact (tie_cell_handed_over_once g pos_x pos_y r1 r2 hc hne hp).2.2.1 _

/-- C14 applies to the cell `(1, 0)` of `duel_game`. -/
theorem tie_cell_in_process_production_witness :
    (1, 0) ∈ scan_order duel_game.world.game_map ∧
    find_closest_entities duel_game (1, 0) [] = [0, 1] ∧
    (duel_game.world.store 0).owner_id ≠ (duel_game.world.store 1).owner_id ∧
    0 ≤ (duel_game.world.game_map.cells (1, 0)).production ∧
    (process_production_traced duel_game).2.filter (fun call => decide (call.1 = (1, 0)))
      = [((1, 0), [0, 1])] :=
  ⟨by decide, by decide, by decide, by decide,
    (tie_cell_in_process_production duel_game 1 0 0 1 (by decide) (by decide) (by decide)
      (by decide)).2.1⟩

end Halite
